import Mathlib

/-!
# Verification of the parabel-rs training pipeline (`src/model/train.rs`)

A shallow embedding of the training code of the parabel-rs repository.
Machine floats (`f32`) are idealised as exact rationals (`ℚ`) where no square
root is involved and as real numbers (`ℝ`) for the L2-normalisation pipeline;
`Index` (`u32`) is idealised as `ℕ`.  Sparse structures (CSR matrices,
index/value vectors, label sets) are embedded as lists.  The sparse-matrix
utilities (`mat_util`), the liblinear wrapper and the clusterer live outside
`src/`; they are modelled from the specification, as marked in doc comments.
-/

namespace Parabel

/-- An `IndexValueVec` from the source: a sparse vector of (index, value)
pairs, generic over the value type. -/
abbrev SparseVec (α : Type) := List (ℕ × α)

/-- A CSR-like sparse matrix: a list of sparse rows plus an explicit column
count.  Modelled from the spec (§3 "SparseMatrix"); the concrete `sprs` type
used by the source is not under `src/`. -/
structure SparseMat (α : Type) where
  rowsList : List (SparseVec α)
  ncols : ℕ
  deriving Repr, DecidableEq

/-- `rows()` of the source's sparse matrix. -/
def SparseMat.rows (m : SparseMat α) : ℕ := m.rowsList.length

/-- `cols()` of the source's sparse matrix. -/
def SparseMat.cols (m : SparseMat α) : ℕ := m.ncols

/-- `row(i)` of the source's sparse matrix (out-of-range reads give the
empty row; the source never reads out of range). -/
def SparseMat.row (m : SparseMat α) (i : ℕ) : SparseVec α := m.rowsList.getD i []

/-- Modelled from the spec (§4.A, `mat_util` is not under `src/`):
`copy_outer_dims(rows)` returns a new matrix whose row `j` equals the
original's row `rows[j]`; the column count is unchanged. -/
def SparseMat.copy_outer_dims (m : SparseMat α) (idxs : List ℕ) : SparseMat α :=
  ⟨idxs.map (fun i => m.rowsList.getD i []), m.ncols⟩

/-- The (sorted, deduplicated) list of column indices that carry at least one
stored entry in some row. -/
def occupiedCols (rs : List (SparseVec α)) : List ℕ :=
  List.insertionSort (· ≤ ·) ((rs.map (List.map Prod.fst)).flatten.dedup)

/-- Modelled from the spec (§4.A, `mat_util` is not under `src/`):
`shrink_column_indices()` drops columns that are empty, returning the
compacted matrix together with the vector mapping each new column index to
the original column index; the relative order of retained columns is
preserved. -/
def SparseMat.shrink_column_indices (m : SparseMat α) : SparseMat α × List ℕ :=
  let occ := occupiedCols m.rowsList
  (⟨m.rowsList.map (List.map (fun p => (occ.indexOf p.1, p.2))), occ.length⟩, occ)

/-- The input `DataSet` (src/data.rs is not under `src/`; modelled from the
spec §3): feature lists are sparse vectors, label sets are embedded as lists
of label indices with set semantics. -/
structure DataSet (α : Type) where
  n_features : ℕ
  n_labels : ℕ
  feature_lists : List (SparseVec α)
  label_sets : List (List ℕ)
  deriving Repr, DecidableEq

/-- Loss variants recognised by the linear-classifier trainer (modelled from
the spec §6; `liblinear.rs` is not under `src/`). -/
inductive LossType where
  | hingeSquared
  | logistic
  deriving Repr, DecidableEq

/-- Regularisation variants (modelled from the spec §6). -/
inductive RegType where
  | l1
  | l2
  deriving Repr, DecidableEq

/-- Modelled from the spec (§6, `liblinear.rs` is not under `src/`): the
nested linear-classifier hyper-parameters. -/
structure LinearHyperParam where
  loss : LossType
  regularization : RegType
  c : ℚ
  eps : ℚ
  max_iter : ℕ
  weight_threshold : ℚ
  deriving Repr, DecidableEq

/-- Modelled from the spec (§6): the bounds on the nested linear
hyper-parameters — `C` positive, `epsilon` positive, `max_iter` positive,
`weight_threshold` non-negative. -/
def LinearHyperParam.validate (hp : LinearHyperParam) : Except String Unit :=
  if hp.c ≤ 0 then .error "C must be positive"
  else if hp.eps ≤ 0 then .error "epsilon must be positive"
  else if hp.max_iter = 0 then .error "max_iter must be positive"
  else if hp.weight_threshold < 0 then .error "weight_threshold must be non-negative"
  else .ok ()

/-- Modelled from the spec (§6, `cluster.rs` is not under `src/`): the nested
clustering hyper-parameters. -/
structure ClusterHyperParam where
  k_means_max_iter : ℕ
  eps : ℚ
  deriving Repr, DecidableEq

/-- Modelled from the spec (§6): bounds on the nested clustering
hyper-parameters — `k_means_max_iter` positive, `epsilon` positive. -/
def ClusterHyperParam.validate (hp : ClusterHyperParam) : Except String Unit :=
  if hp.k_means_max_iter = 0 then .error "k_means_max_iter must be positive"
  else if hp.eps ≤ 0 then .error "epsilon must be positive"
  else .ok ()

/-- The model training hyper-parameters (`HyperParam` in `train.rs`). -/
structure HyperParam where
  n_trees : ℕ
  min_branch_size : ℕ
  max_depth : ℕ
  centroid_threshold : ℚ
  linear : LinearHyperParam
  cluster : ClusterHyperParam
  deriving Repr, DecidableEq

/-- `HyperParam::validate` from `train.rs`: the chain of bound checks, each
producing the error message of the first violated bound. -/
def HyperParam.validate (hp : HyperParam) : Except String Unit :=
  if hp.n_trees = 0 then
    .error ("n_trees must be positive, but is " ++ toString hp.n_trees)
  else if hp.min_branch_size ≤ 1 then
    .error ("min_branch_size must be greater than 1, but is " ++ toString hp.min_branch_size)
  else if hp.centroid_threshold < 0 then
    .error ("centroid_threshold must be non-negative, but is " ++ toString hp.centroid_threshold)
  else if hp.max_depth = 0 then
    .error ("max_depth must be positive, but is " ++ toString hp.max_depth)
  else
    match hp.linear.validate with
    | .error msg => .error ("Invalid liblinear hyper-parameter; " ++ msg)
    | .ok () =>
      match hp.cluster.validate with
      | .error msg => .error ("Invalid clustering hyper-parameter; " ++ msg)
      | .ok () => .ok ()

/-- `csrmat_from_index_value_pair_lists` (from `mat_util`, not under `src/`;
modelled from the spec): builds the CSR matrix holding the given sparse rows
with the given column count. -/
def csrmatFromPairLists (rs : List (SparseVec α)) (ncols : ℕ) : SparseMat α :=
  ⟨rs, ncols⟩

/-- `TrainingExamples` from `train.rs`: the feature matrix of a subtree, the
map from local column indices back to original feature indices, and the
(shared) label sets of the examples. -/
structure TrainingExamples (α : Type) where
  feature_matrix : SparseMat α
  index_to_feature : List ℕ
  label_sets : List (List ℕ)
  deriving Repr, DecidableEq

/-- `TrainingExamples::len`. -/
def TrainingExamples.len (te : TrainingExamples α) : ℕ := te.feature_matrix.rows

/-- `TrainingExamples::n_features`. -/
def TrainingExamples.nFeatures (te : TrainingExamples α) : ℕ := te.feature_matrix.cols

/-- `TrainingExamples::new_from_dataset`: appends the bias term
`(n_features, 1)` to every feature list, builds the CSR matrix with
`n_features + 1` columns, and takes the identity `index_to_feature` map. -/
def TrainingExamples.new_from_dataset [One α] (ds : DataSet α) : TrainingExamples α :=
  let bias_index := ds.n_features
  let feature_lists := ds.feature_lists.map (fun v => v ++ [(bias_index, 1)])
  let feature_matrix := csrmatFromPairLists feature_lists (ds.n_features + 1)
  { feature_matrix := feature_matrix
    index_to_feature := List.range feature_matrix.cols
    label_sets := ds.label_sets }

/-- `TrainingExamples::find_examples_with_label`: indices of the examples
whose label set contains the given label. -/
def TrainingExamples.find_examples_with_label (te : TrainingExamples α) (label : ℕ) :
    List ℕ :=
  (List.range te.label_sets.length).filter
    (fun i => decide (label ∈ te.label_sets.getD i []))

/-- `TrainingExamples::find_examples_with_labels`: indices of the examples
whose label set intersects the given label list. -/
def TrainingExamples.find_examples_with_labels (te : TrainingExamples α) (labels : List ℕ) :
    List ℕ :=
  (List.range te.label_sets.length).filter
    (fun i => decide (∃ l ∈ te.label_sets.getD i [], l ∈ labels))

/-- `TrainingExamples::take_examples_by_indices`: row-select and
column-compact the feature matrix, re-compose `index_to_feature` through the
parent's own map, and share the selected label sets. -/
def TrainingExamples.take_examples_by_indices (te : TrainingExamples α) (idxs : List ℕ) :
    TrainingExamples α :=
  let shrunk := (te.feature_matrix.copy_outer_dims idxs).shrink_column_indices
  { feature_matrix := shrunk.1
    index_to_feature := shrunk.2.map (fun i => te.index_to_feature.getD i 0)
    label_sets := idxs.map (fun i => te.label_sets.getD i []) }

/-- `LabelCluster` from `train.rs`: a label subset together with the matrix
of its label centroids. -/
structure LabelCluster (α : Type) where
  labels : List ℕ
  feature_matrix : SparseMat α
  deriving Repr, DecidableEq

/-- `LabelCluster::len`. -/
def LabelCluster.len (lc : LabelCluster α) : ℕ := lc.feature_matrix.rows

/-- `LabelCluster::take_labels_by_indices`: selects the labels at the given
positions and row-selects-then-column-compacts the centroid matrix,
discarding the column index map. -/
def LabelCluster.take_labels_by_indices (lc : LabelCluster α) (idxs : List ℕ) :
    LabelCluster α :=
  { labels := idxs.map (fun i => lc.labels.getD i 0)
    feature_matrix := ((lc.feature_matrix.copy_outer_dims idxs).shrink_column_indices).1 }

/-- The label clusterer (component C; `cluster.rs` is not under `src/`).  It
is modelled from the spec as an abstract function from a centroid matrix to
the produced lists of row indices; the spec's contract (a partition of the
row indices into non-empty parts whenever more than one cluster is produced)
is imposed as a hypothesis where claims need it. -/
abbrev Clusterer (α : Type) := SparseMat α → List (List ℕ)

/-- The clusterer contract, modelled from the spec (§4.C): whenever the
clusterer produces more than one cluster, the clusters' concatenation is a
permutation of the row indices (so the clusters partition the rows) and no
cluster is empty. -/
def ClustererOk (cl : Clusterer α) : Prop :=
  ∀ m : SparseMat α, 1 < (cl m).length →
    (cl m).flatten.Perm (List.range m.rows) ∧ [] ∉ cl m

/-- `LabelCluster::split`: runs the clusterer on the centroid matrix; on a
multi-cluster result returns the subclusters built by
`take_labels_by_indices`, on a single-cluster result returns `none`. -/
def LabelCluster.split (cl : Clusterer α) (lc : LabelCluster α) :
    Option (List (LabelCluster α)) :=
  let clusters := cl lc.feature_matrix
  if 1 < clusters.length then
    some (clusters.map (fun labels => lc.take_labels_by_indices labels))
  else
    none

/-- The total value stored for feature `f` in a sparse vector, summing
duplicate entries the way the source's `+=` accumulation does. -/
def lookupVal [AddCommMonoid α] (f : ℕ) : SparseVec α → α
  | [] => 0
  | p :: r => (if p.1 = f then p.2 else 0) + lookupVal f r

/-- The feature lists of the examples whose label set contains `L` (the
examples over which `compute_label_centroids` accumulates for label `L`). -/
def carrying (ds : DataSet α) (L : ℕ) : List (SparseVec α) :=
  ((ds.feature_lists.zip ds.label_sets).filter (fun p => decide (L ∈ p.2))).map Prod.fst

/-- The accumulated sum, over all examples carrying label `L`, of the values
stored for feature `f` — the entry `label_to_feature_to_sum[L][f]` built by
`compute_label_centroids`. -/
def featureSum [AddCommMonoid α] (ds : DataSet α) (L : ℕ) (f : ℕ) : α :=
  ((carrying ds L).map (lookupVal f)).sum

/-- The features for which `label_to_feature_to_sum[L]` holds an entry: every
feature stored in some example carrying `L`.  The inner hash map's iteration
order is immaterial because the source sorts each centroid by index at the
end; the support is therefore taken in ascending order directly. -/
def supportFeatures (ds : DataSet α) (L : ℕ) : List ℕ :=
  List.insertionSort (· ≤ ·) (((carrying ds L).map (List.map Prod.fst)).flatten.dedup)

/-- The un-normalised centroid vector `v` of label `L` collected from the
accumulator map. -/
def sumVec [AddCommMonoid α] (ds : DataSet α) (L : ℕ) : SparseVec α :=
  (supportFeatures ds L).map (fun f => (f, featureSum ds L f))

/-- The labels for which `label_to_feature_to_sum` holds an entry: every
label occurring in some example's label set.  The source's hash map yields
them in an unspecified order; the embedding fixes the canonical ascending
order. -/
def occurringLabels (ds : DataSet α) : List ℕ :=
  List.insertionSort (· ≤ ·) (ds.label_sets.flatten.dedup)

/-- Sum of squares of the stored values of a sparse vector. -/
def sumSquares (v : SparseVec ℝ) : ℝ := (v.map (fun p => p.2 ^ 2)).sum

/-- Modelled from the spec (§4.A, `mat_util` is not under `src/`):
`l2_normalize` divides every stored value by the L2 norm of the vector; if
the norm is 0 the vector becomes empty. -/
noncomputable def l2normalize (v : SparseVec ℝ) : SparseVec ℝ :=
  let n := Real.sqrt (sumSquares v)
  if n = 0 then [] else v.map (fun p => (p.1, p.2 / n))

/-- Modelled from the spec (§4.A, `mat_util` is not under `src/`):
`prune_with_threshold(t)` drops every entry whose value has absolute value
below `t`. -/
noncomputable def pruneWithThreshold (t : ℝ) : SparseVec ℝ → SparseVec ℝ
  | [] => []
  | p :: r => if |p.2| < t then pruneWithThreshold t r else p :: pruneWithThreshold t r

/-- Modelled from the spec (§4.A, `mat_util` is not under `src/`):
`sort_by_index` sorts the entries ascending by index. -/
def sortByIndex (v : SparseVec α) : SparseVec α :=
  List.insertionSort (fun p q => p.1 ≤ q.1) v

/-- The centroid of one label as computed by
`LabelCluster::compute_label_centroids`: the accumulated sum vector,
L2-normalised, pruned with the threshold, then sorted by index. -/
noncomputable def centroidOf (ds : DataSet ℝ) (t : ℝ) (L : ℕ) : SparseVec ℝ :=
  sortByIndex (pruneWithThreshold t (l2normalize (sumVec ds L)))

/-- `LabelCluster::compute_label_centroids`: the list of occurring labels
paired with their pruned, normalised, sorted centroid vectors. -/
noncomputable def compute_label_centroids (ds : DataSet ℝ) (t : ℝ) :
    List ℕ × List (SparseVec ℝ) :=
  let ls := occurringLabels ds
  (ls, ls.map (centroidOf ds t))

/-- `LabelCluster::new_from_dataset`: centroids assembled into the CSR
matrix over the dataset's global feature space. -/
noncomputable def LabelCluster.new_from_dataset (ds : DataSet ℝ) (t : ℝ) :
    LabelCluster ℝ :=
  let p := compute_label_centroids ds t
  ⟨p.1, csrmatFromPairLists p.2 ds.n_features⟩

/-- The dataset after the driver's in-place L2-normalisation of every
feature list (`TreeTrainer::initialize`, lines 109–112). -/
noncomputable def normalizeDataset (ds : DataSet ℝ) : DataSet ℝ :=
  { ds with feature_lists := ds.feature_lists.map l2normalize }

/-- A tree node.  The liblinear classifier attached to each node is not
under `src/`; it is represented by the per-output positive-example index
lists from which `train_classifier` fits it (the spec's §4.B interface). -/
inductive TreeNode where
  | branch (classifier : List (List ℕ)) (children : List TreeNode)
  | leaf (classifier : List (List ℕ)) (labels : List ℕ)

/-- A tree, owning its root node. -/
structure Tree where
  root : TreeNode

/-- The trained model. -/
structure Model where
  trees : List Tree
  n_features : ℕ

/-- `TreeTrainer::train_leaf_node`: one classifier output per leaf label,
with positives found by `find_examples_with_label`. -/
def trainLeafNode (te : TrainingExamples α) (leaf_labels : List ℕ) : TreeNode :=
  .leaf (leaf_labels.map (fun l => te.find_examples_with_label l)) leaf_labels

/-- `TreeTrainer::train_subtree`: branch whenever the depth limit is not yet
reached, the cluster is large enough and the split succeeds; otherwise train
a leaf.  At a branch, each child recurses on the examples selected by
`find_examples_with_labels` of its cluster's labels, and the routing
classifier's positives are exactly those index lists, aligned with the
children. -/
def trainSubtree (cl : Clusterer α) (hp : HyperParam) (depth : ℕ)
    (te : TrainingExamples α) (lc : LabelCluster α) : TreeNode :=
  if h : depth < hp.max_depth ∧ hp.min_branch_size ≤ lc.len then
    match LabelCluster.split cl lc with
    | some lcs =>
      let exLists := lcs.map (fun c => te.find_examples_with_labels c.labels)
      .branch exLists
        ((lcs.zip exLists).attach.map (fun x =>
          trainSubtree cl hp (depth + 1) (te.take_examples_by_indices x.1.2) x.1.1))
    | none => trainLeafNode te lc.labels
  else trainLeafNode te lc.labels
termination_by hp.max_depth - depth
decreasing_by omega

/-- `TreeTrainer::initialize`: L2-normalise the dataset, build the root
label cluster and the root training examples, and size the progress bar as
(number of labels with a centroid) × `n_trees`. -/
noncomputable def initTrainer (ds : DataSet ℝ) (hp : HyperParam) :
    TrainingExamples ℝ × LabelCluster ℝ × ℕ :=
  let nds := normalizeDataset ds
  let all_labels := LabelCluster.new_from_dataset nds (hp.centroid_threshold : ℝ)
  let all_examples := TrainingExamples.new_from_dataset nds
  (all_examples, all_labels, all_labels.len * hp.n_trees)

/-- The initial total of the progress reporter. -/
noncomputable def progressTotal (ds : DataSet ℝ) (hp : HyperParam) : ℕ :=
  (initTrainer ds hp).2.2

/-- `HyperParam::train` restricted to its tree-building content: each of the
`n_trees` trees is produced by `TreeTrainer::train`, which calls
`train_subtree` at depth 1 on the shared root state. -/
noncomputable def trainModel (cl : Clusterer ℝ) (hp : HyperParam) (ds : DataSet ℝ) :
    Model :=
  let st := initTrainer ds hp
  { trees := (List.range hp.n_trees).map (fun _ => ⟨trainSubtree cl hp 1 st.1 st.2.1⟩)
    n_features := ds.n_features }

/-- Depth of a tree node (a single node counts 1). -/
def TreeNode.depth : TreeNode → ℕ
  | .leaf _ _ => 1
  | .branch _ ch => 1 + (ch.attach.map (fun x => x.1.depth)).foldr max 0
termination_by t => sizeOf t
decreasing_by
  simp only [TreeNode.branch.sizeOf_spec]
  have := List.sizeOf_lt_of_mem x.2
  omega

/-- The multiset union of the labels of all leaves below a node. -/
def TreeNode.leafLabels : TreeNode → Multiset ℕ
  | .leaf _ ls => Multiset.ofList ls
  | .branch _ ch => (ch.attach.map (fun x => x.1.leafLabels)).sum
termination_by t => sizeOf t
decreasing_by
  simp only [TreeNode.branch.sizeOf_spec]
  have := List.sizeOf_lt_of_mem x.2
  omega

/-- Every branch node below (and including) this node has at least two
children. -/
def TreeNode.branchesOk : TreeNode → Prop
  | .leaf _ _ => True
  | .branch _ ch => 2 ≤ ch.length ∧ ∀ x ∈ ch.attach, TreeNode.branchesOk x.1
termination_by t => sizeOf t
decreasing_by
  simp only [TreeNode.branch.sizeOf_spec]
  have := List.sizeOf_lt_of_mem x.2
  omega

/-! ## Claim C4: validation totality -/

/-- The conjunction of all hyper-parameter bounds stated by the spec. -/
def HyperParam.valid (hp : HyperParam) : Prop :=
  hp.n_trees ≠ 0 ∧ ¬ hp.min_branch_size ≤ 1 ∧ ¬ hp.centroid_threshold < 0 ∧
    hp.max_depth ≠ 0 ∧ hp.linear.validate.isOk = true ∧ hp.cluster.validate.isOk = true

instance (hp : HyperParam) : Decidable hp.valid := by
  unfold HyperParam.valid
  infer_instance

/-- **C4.** `validate()` succeeds exactly when every stated bound holds, and
on a violation it returns the error message of the first violated bound in
the order the source checks them: `n_trees == 0`, `min_branch_size <= 1`,
`centroid_threshold < 0`, `max_depth == 0`, then the nested linear and
cluster validations. -/
theorem claim_C4_validate_totality (hp : HyperParam) :
    (hp.validate = .ok () ↔ hp.valid) ∧
    (hp.n_trees = 0 →
      hp.validate = .error ("n_trees must be positive, but is " ++ toString hp.n_trees)) ∧
    (hp.n_trees ≠ 0 → hp.min_branch_size ≤ 1 →
      hp.validate =
        .error ("min_branch_size must be greater than 1, but is " ++
          toString hp.min_branch_size)) ∧
    (hp.n_trees ≠ 0 → ¬ hp.min_branch_size ≤ 1 → hp.centroid_threshold < 0 →
      hp.validate =
        .error ("centroid_threshold must be non-negative, but is " ++
          toString hp.centroid_threshold)) ∧
    (hp.n_trees ≠ 0 → ¬ hp.min_branch_size ≤ 1 → ¬ hp.centroid_threshold < 0 →
      hp.max_depth = 0 →
      hp.validate = .error ("max_depth must be positive, but is " ++ toString hp.max_depth)) ∧
    (∀ msg, hp.n_trees ≠ 0 → ¬ hp.min_branch_size ≤ 1 → ¬ hp.centroid_threshold < 0 →
      hp.max_depth ≠ 0 → hp.linear.validate = .error msg →
      hp.validate = .error ("Invalid liblinear hyper-parameter; " ++ msg)) ∧
    (∀ msg, hp.n_trees ≠ 0 → ¬ hp.min_branch_size ≤ 1 → ¬ hp.centroid_threshold < 0 →
      hp.max_depth ≠ 0 → hp.linear.validate = .ok () → hp.cluster.validate = .error msg →
      hp.validate = .error ("Invalid clustering hyper-parameter; " ++ msg)) := by
  unfold HyperParam.validate HyperParam.valid
  split_ifs with h1 h2 h3 h4
  · simp [h1]
  · simp [h1, h2]
  · simp [h1, h2, h3]
  · simp [h1, h2, h3, h4]
  · cases hl : hp.linear.validate with
    | error msg => simp [h1, h2, h3, h4, hl, Except.isOk, Except.toBool]
    | ok u =>
      cases u
      cases hc : hp.cluster.validate with
      | error msg => simp [h1, h2, h3, h4, hl, hc, Except.isOk, Except.toBool]
      | ok u => cases u; simp [h1, h2, h3, h4, hl, hc, Except.isOk, Except.toBool]

/-- A concrete valid hyper-parameter value (the source's `Default` values,
with the nested parameters instantiated within the spec's bounds). -/
def goodHP : HyperParam :=
  { n_trees := 3
    min_branch_size := 100
    max_depth := 20
    centroid_threshold := 0
    linear :=
      { loss := .hingeSquared
        regularization := .l2
        c := 1
        eps := 1
        max_iter := 20
        weight_threshold := 0 }
    cluster := { k_means_max_iter := 20, eps := 1 } }

/-- A hyper-parameter value violating the `n_trees` bound. -/
def badHP : HyperParam := { goodHP with n_trees := 0 }

/-- Witness for C4: the valid value passes validation, the invalid one is
rejected with the message naming the violated bound. -/
theorem claim_C4_validate_totality_witness :
    goodHP.validate = .ok () ∧
    badHP.validate = .error ("n_trees must be positive, but is " ++ toString badHP.n_trees) :=
  ⟨(claim_C4_validate_totality goodHP).1.mpr (by decide),
   (claim_C4_validate_totality badHP).2.1 (by decide)⟩

/-! ## Shared facts about column compaction -/

theorem occupiedCols_nodup (rs : List (SparseVec α)) : (occupiedCols rs).Nodup :=
  (List.perm_insertionSort _ _).nodup_iff.mpr (List.nodup_dedup _)

theorem mem_occupiedCols {rs : List (SparseVec α)} {c : ℕ} :
    c ∈ occupiedCols rs ↔ ∃ r ∈ rs, ∃ p ∈ r, p.1 = c := by
  simp only [occupiedCols, List.mem_insertionSort, List.mem_dedup, List.mem_flatten,
    List.mem_map]
  constructor
  · rintro ⟨l, ⟨r, hr, rfl⟩, hc⟩
    obtain ⟨p, hp, rfl⟩ := List.mem_map.mp hc
    exact ⟨r, hr, p, hp, rfl⟩
  · rintro ⟨r, hr, p, hp, rfl⟩
    exact ⟨r.map Prod.fst, ⟨r, hr, rfl⟩, List.mem_map_of_mem _ hp⟩

theorem occupiedCols_getD_indexOf {rs : List (SparseVec α)} {c : ℕ}
    (h : c ∈ occupiedCols rs) :
    (occupiedCols rs).getD ((occupiedCols rs).indexOf c) 0 = c := by
  have hlt := List.indexOf_lt_length.mpr h
  rw [List.getD_eq_getElem _ _ hlt]
  exact List.getElem_indexOf hlt

theorem occupiedCols_length_le {rs : List (SparseVec α)} {n : ℕ}
    (h : ∀ r ∈ rs, ∀ p ∈ r, p.1 < n) : (occupiedCols rs).length ≤ n := by
  have hnd := occupiedCols_nodup rs
  have hsub : (occupiedCols rs).toFinset ⊆ Finset.range n := by
    intro x hx
    rw [List.mem_toFinset] at hx
    obtain ⟨r, hr, p, hp, rfl⟩ := mem_occupiedCols.mp hx
    exact Finset.mem_range.mpr (h r hr p hp)
  calc (occupiedCols rs).length = (occupiedCols rs).toFinset.card :=
        (List.toFinset_card_of_nodup hnd).symm
    _ ≤ (Finset.range n).card := Finset.card_le_card hsub
    _ = n := Finset.card_range n

/-- Entries of a row-selected matrix are entries of rows of the original. -/
theorem copy_outer_dims_entry_lt {m : SparseMat α} {n : ℕ}
    (hwf : ∀ r ∈ m.rowsList, ∀ p ∈ r, p.1 < n) (idxs : List ℕ) :
    ∀ r ∈ (m.copy_outer_dims idxs).rowsList, ∀ p ∈ r, p.1 < n := by
  intro r hr p hp
  simp only [SparseMat.copy_outer_dims, List.mem_map] at hr
  obtain ⟨i, _, rfl⟩ := hr
  rcases lt_or_ge i m.rowsList.length with hlt | hge
  · rw [List.getD_eq_getElem _ _ hlt] at hp
    exact hwf _ (List.getElem_mem hlt) p hp
  · rw [List.getD_eq_default _ _ hge] at hp
    simp at hp

/-! ## Claim C2: `split` and column shrinkage -/

/-- **C2 (amended).** On a multi-cluster result, `split` returns the
subclusters built by `take_labels_by_indices`; each subcluster's feature
matrix is the row selection of the parent's with its columns *compacted*:
its column count is the number of parent columns occupied by the selected
rows, which is at most the parent's column count for a well-formed parent
matrix.  On a single-cluster result `split` returns `none`. -/
theorem claim_C2_split_shrinks_columns (cl : Clusterer α) (lc : LabelCluster α)
    (hwf : ∀ r ∈ lc.feature_matrix.rowsList, ∀ p ∈ r, p.1 < lc.feature_matrix.cols) :
    (1 < (cl lc.feature_matrix).length →
      LabelCluster.split cl lc =
        some ((cl lc.feature_matrix).map (fun part => lc.take_labels_by_indices part)) ∧
      ∀ part ∈ cl lc.feature_matrix,
        (lc.take_labels_by_indices part).feature_matrix.rows = part.length ∧
        (lc.take_labels_by_indices part).feature_matrix.cols =
          (occupiedCols ((lc.feature_matrix.copy_outer_dims part).rowsList)).length ∧
        (lc.take_labels_by_indices part).feature_matrix.cols ≤ lc.feature_matrix.cols) ∧
    ((cl lc.feature_matrix).length ≤ 1 → LabelCluster.split cl lc = none) := by
  constructor
  · intro hgt
    constructor
    · simp [LabelCluster.split, hgt]
    · intro part _
      refine ⟨?_, rfl, ?_⟩
      · simp [LabelCluster.take_labels_by_indices, SparseMat.shrink_column_indices,
          SparseMat.copy_outer_dims, SparseMat.rows]
      · exact occupiedCols_length_le (copy_outer_dims_entry_lt hwf part)
  · intro hle
    simp [LabelCluster.split, Nat.not_lt.mpr hle]

/-- The fixed two-cluster splitter used by concrete counterexamples. -/
def pairCl : Clusterer ℚ := fun _ => [[0], [1]]

/-- A concrete label cluster whose two rows occupy disjoint single columns. -/
def cexLC : LabelCluster ℚ :=
  { labels := [5, 7]
    feature_matrix := ⟨[[(0, 1)], [(1, 1)]], 2⟩ }

/-- Counterexample to C2 as stated: the clusterer produces two clusters, yet
the first subcluster's feature matrix has 1 column while the parent has 2 —
the column space is *not* unchanged, because `take_labels_by_indices`
compacts columns. -/
theorem claim_C2_counterexample :
    1 < (pairCl cexLC.feature_matrix).length ∧
    LabelCluster.split pairCl cexLC =
      some [⟨[5], ⟨[[(0, 1)]], 1⟩⟩, ⟨[7], ⟨[[(0, 1)]], 1⟩⟩] ∧
    ((LabelCluster.split pairCl cexLC).getD []).all
      (fun sub => sub.feature_matrix.cols = 1) = true ∧
    cexLC.feature_matrix.cols = 2 := by
  refine ⟨by decide, by decide, ?_, by decide⟩
  decide

/-- Witness for the amended C2 at the concrete counterexample input. -/
theorem claim_C2_split_shrinks_columns_witness :
    (∀ r ∈ cexLC.feature_matrix.rowsList, ∀ p ∈ r, p.1 < cexLC.feature_matrix.cols) ∧
    ((1 < (pairCl cexLC.feature_matrix).length →
      LabelCluster.split pairCl cexLC =
        some ((pairCl cexLC.feature_matrix).map
          (fun part => cexLC.take_labels_by_indices part)) ∧
      ∀ part ∈ pairCl cexLC.feature_matrix,
        (cexLC.take_labels_by_indices part).feature_matrix.rows = part.length ∧
        (cexLC.take_labels_by_indices part).feature_matrix.cols =
          (occupiedCols ((cexLC.feature_matrix.copy_outer_dims part).rowsList)).length ∧
        (cexLC.take_labels_by_indices part).feature_matrix.cols ≤
          cexLC.feature_matrix.cols) ∧
    ((pairCl cexLC.feature_matrix).length ≤ 1 →
      LabelCluster.split pairCl cexLC = none)) :=
  ⟨by decide, claim_C2_split_shrinks_columns pairCl cexLC (by decide)⟩

/-! ## Claim C5: example partitioning soundness -/

theorem mem_find_examples_with_labels {te : TrainingExamples α} {ls : List ℕ} {i : ℕ} :
    i ∈ te.find_examples_with_labels ls ↔
      i < te.label_sets.length ∧ ∃ l ∈ te.label_sets.getD i [], l ∈ ls := by
  simp [TrainingExamples.find_examples_with_labels, List.mem_filter, List.mem_range,
    and_comm]

/-- The labels of the subclusters returned by a successful split cover
exactly the parent's labels. -/
theorem split_labels_cover {cl : Clusterer α} {lc : LabelCluster α}
    {lcs : List (LabelCluster α)}
    (hsplit : LabelCluster.split cl lc = some lcs)
    (hpart : (cl lc.feature_matrix).flatten.Perm (List.range lc.feature_matrix.rows))
    (hlen : lc.labels.length = lc.feature_matrix.rows) {L : ℕ} :
    (∃ c ∈ lcs, L ∈ c.labels) ↔ L ∈ lc.labels := by
  simp only [LabelCluster.split] at hsplit
  split_ifs at hsplit with hgt
  simp only [Option.some_inj] at hsplit
  subst hsplit
  constructor
  · rintro ⟨c, hc, hL⟩
    obtain ⟨part, hpartmem, rfl⟩ := List.mem_map.mp hc
    simp only [LabelCluster.take_labels_by_indices, List.mem_map] at hL
    obtain ⟨j, hj, rfl⟩ := hL
    have hjr : j ∈ List.range lc.feature_matrix.rows :=
      hpart.mem_iff.mp (List.mem_flatten.mpr ⟨part, hpartmem, hj⟩)
    have hjlt : j < lc.labels.length := hlen ▸ List.mem_range.mp hjr
    rw [List.getD_eq_getElem _ _ hjlt]
    exact List.getElem_mem hjlt
  · intro hL
    obtain ⟨j, hjlt, rfl⟩ := List.mem_iff_getElem.mp hL
    have hjr : j ∈ (cl lc.feature_matrix).flatten :=
      hpart.mem_iff.mpr (List.mem_range.mpr (hlen ▸ hjlt))
    obtain ⟨part, hpartmem, hj⟩ := List.mem_flatten.mp hjr
    refine ⟨lc.take_labels_by_indices part, List.mem_map_of_mem _ hpartmem, ?_⟩
    simp only [LabelCluster.take_labels_by_indices, List.mem_map]
    exact ⟨j, hj, by rw [List.getD_eq_getElem _ _ hjlt]⟩

/-- **C5.** `find_examples_with_labels(ls)` returns exactly the indices of
examples whose label set meets `ls`, and at a branch node the union of
`find_examples_with_labels(child.labels)` over the children of a successful
split equals `find_examples_with_labels(parent.labels)`. -/
theorem claim_C5_example_partitioning (cl : Clusterer α) (te : TrainingExamples α)
    (lc : LabelCluster α) (lcs : List (LabelCluster α))
    (hsplit : LabelCluster.split cl lc = some lcs)
    (hpart : (cl lc.feature_matrix).flatten.Perm (List.range lc.feature_matrix.rows))
    (hlen : lc.labels.length = lc.feature_matrix.rows) :
    (∀ ls i, i ∈ te.find_examples_with_labels ls ↔
      i < te.label_sets.length ∧ ∃ l ∈ te.label_sets.getD i [], l ∈ ls) ∧
    (∀ i, (∃ c ∈ lcs, i ∈ te.find_examples_with_labels c.labels) ↔
      i ∈ te.find_examples_with_labels lc.labels) := by
  refine ⟨fun ls i => mem_find_examples_with_labels, fun i => ?_⟩
  simp only [mem_find_examples_with_labels]
  constructor
  · rintro ⟨c, hc, hi, l, hl, hlc⟩
    exact ⟨hi, l, hl, (split_labels_cover hsplit hpart hlen).mp ⟨c, hc, hlc⟩⟩
  · rintro ⟨hi, l, hl, hllc⟩
    obtain ⟨c, hc, hlc⟩ := (split_labels_cover hsplit hpart hlen).mpr hllc
    exact ⟨c, hc, hi, l, hl, hlc⟩

/-- Concrete training examples over the labels of `cexLC`: one example per
child label and one example carrying both. -/
def cexTE : TrainingExamples ℚ :=
  { feature_matrix := ⟨[[(0, 1)], [(0, 1)], [(0, 1)]], 1⟩
    index_to_feature := [0]
    label_sets := [[5], [7], [5, 7]] }

/-- Witness for C5 at a concrete split: the hypotheses hold for `pairCl` on
`cexLC`, and the union of the children's example lists equals the parent's. -/
theorem claim_C5_example_partitioning_witness :
    LabelCluster.split pairCl cexLC =
      some ((pairCl cexLC.feature_matrix).map
        (fun part => cexLC.take_labels_by_indices part)) ∧
    (pairCl cexLC.feature_matrix).flatten.Perm
      (List.range cexLC.feature_matrix.rows) ∧
    cexLC.labels.length = cexLC.feature_matrix.rows ∧
    (∀ i, (∃ c ∈ (pairCl cexLC.feature_matrix).map
        (fun part => cexLC.take_labels_by_indices part),
        i ∈ cexTE.find_examples_with_labels c.labels) ↔
      i ∈ cexTE.find_examples_with_labels cexLC.labels) :=
  ⟨by decide, by decide, by decide,
   (claim_C5_example_partitioning pairCl cexTE cexLC _
     (by decide) (by decide) (by decide)).2⟩

/-! ## Claim C6: feature remap transitivity -/

theorem getD_map_lt {γ β : Type} {l : List γ} (f : γ → β) {j : ℕ} (h : j < l.length)
    (d : β) (d' : γ) : (l.map f).getD j d = f (l.getD j d') := by
  rw [List.getD_eq_getElem _ _ (by simpa using h), List.getElem_map,
    List.getD_eq_getElem _ _ h]

/-- `index_to_feature` names original columns: some selection `rowIdx` of
original rows exists such that re-indexing every entry of row `j` of the
local feature matrix through `index_to_feature` reproduces the original
matrix's row `rowIdx[j]` exactly. -/
def Tracks (orig : SparseMat α) (te : TrainingExamples α) : Prop :=
  ∃ rowIdx : List ℕ, rowIdx.length = te.feature_matrix.rows ∧
    ∀ j, j < te.feature_matrix.rows →
      (te.feature_matrix.row j).map (fun p => (te.index_to_feature.getD p.1 0, p.2)) =
        orig.row (rowIdx.getD j 0)

/-- The bias-augmented global matrix built by `new_from_dataset` (the
original feature space every `index_to_feature` refers to). -/
def biasMatrix [One α] (ds : DataSet α) : SparseMat α :=
  csrmatFromPairLists (ds.feature_lists.map (fun v => v ++ [(ds.n_features, 1)]))
    (ds.n_features + 1)

/-- The root `TrainingExamples` tracks the bias-augmented original matrix:
`index_to_feature` is the identity on the global columns. -/
theorem tracks_new_from_dataset [One α] (ds : DataSet α)
    (hwf : ∀ r ∈ ds.feature_lists, ∀ p ∈ r, p.1 < ds.n_features) :
    Tracks (biasMatrix ds) (TrainingExamples.new_from_dataset ds) := by
  refine ⟨List.range ds.feature_lists.length, by
    simp [TrainingExamples.new_from_dataset, csrmatFromPairLists, SparseMat.rows], ?_⟩
  intro j hj
  have hj' : j < ds.feature_lists.length := by
    simpa [TrainingExamples.new_from_dataset, csrmatFromPairLists, SparseMat.rows] using hj
  have hr : (List.range ds.feature_lists.length).getD j 0 = j := by
    rw [List.getD_eq_getElem _ _ (by simpa using hj'), List.getElem_range]
  rw [hr]
  simp only [TrainingExamples.new_from_dataset, biasMatrix, csrmatFromPairLists,
    SparseMat.row, SparseMat.cols]
  rw [List.getD_eq_getElem _ _ (by simpa using hj')]
  simp only [List.getElem_map]
  rw [List.map_congr_left, List.map_id]
  intro p hp
  have hlt : p.1 < ds.n_features + 1 := by
    rcases List.mem_append.mp hp with hmem | hmem
    · exact Nat.lt_succ_of_lt (hwf _ (List.getElem_mem hj') p hmem)
    · rw [List.mem_singleton] at hmem
      rw [hmem]
      exact Nat.lt_succ_self _
  show ((List.range (ds.n_features + 1)).getD p.1 0, p.2) = p
  rw [List.getD_eq_getElem _ _ (by simpa using hlt), List.getElem_range]

/-- `take_examples_by_indices` preserves the tracking invariant: the
re-composed `index_to_feature` still names original columns. -/
theorem tracks_take {orig : SparseMat α} {te : TrainingExamples α}
    (ht : Tracks orig te) (idxs : List ℕ)
    (hv : ∀ i ∈ idxs, i < te.feature_matrix.rows) :
    Tracks orig (te.take_examples_by_indices idxs) := by
  obtain ⟨rowIdx, hlen, hrow⟩ := ht
  refine ⟨idxs.map (fun i => rowIdx.getD i 0), ?_, ?_⟩
  · simp [TrainingExamples.take_examples_by_indices, SparseMat.shrink_column_indices,
      SparseMat.copy_outer_dims, SparseMat.rows]
  · intro j hj
    have hjlen : j < idxs.length := by
      simpa [TrainingExamples.take_examples_by_indices, SparseMat.shrink_column_indices,
        SparseMat.copy_outer_dims, SparseMat.rows] using hj
    have hij : idxs.getD j 0 ∈ idxs := by
      rw [List.getD_eq_getElem _ _ hjlen]
      exact List.getElem_mem hjlen
    have hijlt : idxs.getD j 0 < te.feature_matrix.rows := hv _ hij
    simp only [TrainingExamples.take_examples_by_indices,
      SparseMat.shrink_column_indices, SparseMat.copy_outer_dims, SparseMat.row]
    set occ := occupiedCols (idxs.map (fun i => te.feature_matrix.rowsList.getD i [])) with hocc
    rw [getD_map_lt _ (by simpa using hjlen) _ ([] : SparseVec α)]
    rw [getD_map_lt _ hjlen _ 0]
    rw [List.map_map]
    have hrowmem : te.feature_matrix.rowsList.getD (idxs.getD j 0) [] ∈
        idxs.map (fun i => te.feature_matrix.rowsList.getD i []) :=
      List.mem_map_of_mem _ hij
    have hstep : ∀ p ∈ te.feature_matrix.rowsList.getD (idxs.getD j 0) [],
        ((fun p => ((occ.map (fun i => te.index_to_feature.getD i 0)).getD p.1 0, p.2)) ∘
          (fun p => (occ.indexOf p.1, p.2))) p =
        (fun p => (te.index_to_feature.getD p.1 0, p.2)) p := by
      intro p hp
      have hmemocc : p.1 ∈ occ := by
        rw [hocc]
        exact mem_occupiedCols.mpr ⟨_, hrowmem, p, hp, rfl⟩
      have hidxlt : occ.indexOf p.1 < occ.length := List.indexOf_lt_length.mpr hmemocc
      simp only [Function.comp_apply]
      rw [getD_map_lt _ hidxlt _ 0, occupiedCols_getD_indexOf hmemocc]
    rw [List.map_congr_left hstep]
    have := hrow (idxs.getD j 0) hijlt
    simp only [SparseMat.row] at this
    rw [this]
    congr 1
    rw [getD_map_lt _ hjlen _ 0]

/-- A chain of `take_examples_by_indices` applications. -/
def chainTake (te : TrainingExamples α) : List (List ℕ) → TrainingExamples α
  | [] => te
  | idxs :: rest => chainTake (te.take_examples_by_indices idxs) rest

/-- Every index list of the chain selects rows that exist at its step. -/
def validChain (te : TrainingExamples α) : List (List ℕ) → Bool
  | [] => true
  | idxs :: rest =>
    idxs.all (fun i => decide (i < te.feature_matrix.rows)) &&
      validChain (te.take_examples_by_indices idxs) rest

theorem tracks_chainTake {orig : SparseMat α} {te : TrainingExamples α}
    (ht : Tracks orig te) (chain : List (List ℕ))
    (hv : validChain te chain = true) : Tracks orig (chainTake te chain) := by
  induction chain generalizing te with
  | nil => exact ht
  | cons idxs rest ih =>
    simp only [validChain, Bool.and_eq_true, List.all_eq_true, decide_eq_true_eq] at hv
    exact ih (tracks_take ht idxs hv.1) hv.2

/-- **C6.** For every valid chain of `take_examples_by_indices` applications
starting from the `TrainingExamples` built from the dataset, the final
instance still tracks the bias-augmented original matrix: re-indexing every
retained local column `k` through the final `index_to_feature` recovers the
original dataset's column of global feature index `index_to_feature[k]`,
row for row. -/
theorem claim_C6_feature_remap_transitivity [One α] (ds : DataSet α)
    (chain : List (List ℕ))
    (hwf : ∀ r ∈ ds.feature_lists, ∀ p ∈ r, p.1 < ds.n_features)
    (hv : validChain (TrainingExamples.new_from_dataset ds) chain = true) :
    Tracks (biasMatrix ds) (chainTake (TrainingExamples.new_from_dataset ds) chain) :=
  tracks_chainTake (tracks_new_from_dataset ds hwf) chain hv

/-- A concrete dataset over ℚ used by witnesses. -/
def wDS : DataSet ℚ :=
  { n_features := 3
    n_labels := 2
    feature_lists := [[(0, 1), (2, 2)], [(1, 1)], [(0, 3)]]
    label_sets := [[0], [1], [0, 1]] }

/-- Witness for C6: a two-step chain on a concrete dataset satisfies the
hypotheses, and the final view tracks the original matrix. -/
theorem claim_C6_feature_remap_transitivity_witness :
    (∀ r ∈ wDS.feature_lists, ∀ p ∈ r, p.1 < wDS.n_features) ∧
    validChain (TrainingExamples.new_from_dataset wDS) [[0, 2], [1]] = true ∧
    Tracks (biasMatrix wDS)
      (chainTake (TrainingExamples.new_from_dataset wDS) [[0, 2], [1]]) :=
  ⟨by decide, by decide,
   claim_C6_feature_remap_transitivity wDS [[0, 2], [1]] (by decide) (by decide)⟩

/-! ## Claim C7: the bias column survives every take -/

/-- The training examples hold a local column `k` whose global index is `b`
and which stores the value 1 in every row. -/
def HasBias [One α] (b : ℕ) (te : TrainingExamples α) : Prop :=
  ∃ k, k < te.index_to_feature.length ∧ te.index_to_feature.getD k 0 = b ∧
    ∀ j, j < te.feature_matrix.rows → (k, (1 : α)) ∈ te.feature_matrix.row j

/-- `new_from_dataset` appends the bias entry `(n_features, 1)` to every
row, so the root examples have the bias column. -/
theorem hasBias_new_from_dataset [One α] (ds : DataSet α) :
    HasBias ds.n_features (TrainingExamples.new_from_dataset ds) := by
  refine ⟨ds.n_features, ?_, ?_, ?_⟩
  · simp [TrainingExamples.new_from_dataset, csrmatFromPairLists, SparseMat.cols]
  · simp only [TrainingExamples.new_from_dataset, csrmatFromPairLists, SparseMat.cols]
    rw [List.getD_eq_getElem _ _ (by simp), List.getElem_range]
  · intro j hj
    have hj' : j < ds.feature_lists.length := by
      simpa [TrainingExamples.new_from_dataset, csrmatFromPairLists, SparseMat.rows]
        using hj
    simp only [TrainingExamples.new_from_dataset, csrmatFromPairLists, SparseMat.row]
    rw [List.getD_eq_getElem _ _ (by simpa using hj'), List.getElem_map]
    simp

/-- `take_examples_by_indices` with a non-empty valid index list keeps the
bias column: it is occupied in every selected row, hence not shrunk away,
and the re-composed `index_to_feature` still maps it to `b`. -/
theorem hasBias_take [One α] {b : ℕ} {te : TrainingExamples α}
    (hb : HasBias b te) (idxs : List ℕ)
    (hv : ∀ i ∈ idxs, i < te.feature_matrix.rows) (hne : idxs ≠ []) :
    HasBias b (te.take_examples_by_indices idxs) := by
  obtain ⟨k, hk, hkb, hrow⟩ := hb
  have hlen0 : 0 < idxs.length := List.length_pos.mpr hne
  set copyRows := idxs.map (fun i => te.feature_matrix.rowsList.getD i []) with hcopy
  set occ := occupiedCols copyRows with hocc
  have hrowgetD : ∀ i, i < te.feature_matrix.rows →
      (k, (1 : α)) ∈ te.feature_matrix.rowsList.getD i [] := by
    intro i hi
    simpa [SparseMat.row] using hrow i hi
  have hkocc : k ∈ occ := by
    have h0 : idxs.getD 0 0 ∈ idxs := by
      rw [List.getD_eq_getElem _ _ hlen0]
      exact List.getElem_mem hlen0
    refine mem_occupiedCols.mpr
      ⟨te.feature_matrix.rowsList.getD (idxs.getD 0 0) [], ?_, (k, 1), ?_, rfl⟩
    · exact List.mem_map_of_mem _ h0
    · exact hrowgetD _ (hv _ h0)
  have hidxlt : occ.indexOf k < occ.length := List.indexOf_lt_length.mpr hkocc
  refine ⟨occ.indexOf k, ?_, ?_, ?_⟩
  · simpa [TrainingExamples.take_examples_by_indices, SparseMat.shrink_column_indices,
      SparseMat.copy_outer_dims, hcopy, hocc] using hidxlt
  · simp only [TrainingExamples.take_examples_by_indices,
      SparseMat.shrink_column_indices, SparseMat.copy_outer_dims]
    rw [getD_map_lt _ hidxlt _ 0]
    have hkocc' : k ∈ occupiedCols copyRows := hkocc
    rw [hocc, occupiedCols_getD_indexOf hkocc']
    exact hkb
  · intro j hj
    have hjlen : j < idxs.length := by
      simpa [TrainingExamples.take_examples_by_indices, SparseMat.shrink_column_indices,
        SparseMat.copy_outer_dims, SparseMat.rows] using hj
    simp only [TrainingExamples.take_examples_by_indices,
      SparseMat.shrink_column_indices, SparseMat.copy_outer_dims, SparseMat.row]
    rw [getD_map_lt _ (by simpa using hjlen) _ ([] : SparseVec α)]
    have hijmem : idxs.getD j 0 ∈ idxs := by
      rw [List.getD_eq_getElem _ _ hjlen]
      exact List.getElem_mem hjlen
    have hmem2 : (k, (1 : α)) ∈
        (List.map (fun i => te.feature_matrix.rowsList.getD i []) idxs).getD j [] := by
      rw [getD_map_lt _ hjlen _ 0]
      exact hrowgetD _ (hv _ hijmem)
    exact List.mem_map.mpr ⟨(k, 1), hmem2, rfl⟩

/-- A chain where every step's index list is valid and non-empty. -/
def validChainNE (te : TrainingExamples α) : List (List ℕ) → Bool
  | [] => true
  | idxs :: rest =>
    !idxs.isEmpty &&
      (idxs.all (fun i => decide (i < te.feature_matrix.rows)) &&
        validChainNE (te.take_examples_by_indices idxs) rest)

/-- **C7.** Along every chain of non-empty, valid `take_examples_by_indices`
steps starting from the `TrainingExamples` built from the dataset (this is
every instance reachable during training; the empty chain is the root), the
result keeps a local column whose `index_to_feature` value is the dataset's
`n_features` and whose value is 1 in every row. -/
theorem claim_C7_bias_column [One α] (ds : DataSet α) (chain : List (List ℕ))
    (hv : validChainNE (TrainingExamples.new_from_dataset ds) chain = true) :
    HasBias ds.n_features (chainTake (TrainingExamples.new_from_dataset ds) chain) := by
  have main : ∀ (chain : List (List ℕ)) (te : TrainingExamples α),
      HasBias ds.n_features te → validChainNE te chain = true →
      HasBias ds.n_features (chainTake te chain) := by
    intro chain
    induction chain with
    | nil => intro te hb _; exact hb
    | cons idxs rest ih =>
      intro te hb hv
      simp only [validChainNE, Bool.and_eq_true, List.all_eq_true, decide_eq_true_eq,
        Bool.not_eq_true', List.isEmpty_eq_false] at hv
      exact ih _ (hasBias_take hb idxs hv.2.1 hv.1) hv.2.2
  exact main chain _ (hasBias_new_from_dataset ds) hv

/-- Witness for C7 at a concrete dataset and two-step chain. -/
theorem claim_C7_bias_column_witness :
    validChainNE (TrainingExamples.new_from_dataset wDS) [[0, 2], [1]] = true ∧
    HasBias wDS.n_features (chainTake (TrainingExamples.new_from_dataset wDS) [[0, 2], [1]]) :=
  ⟨by decide, claim_C7_bias_column wDS [[0, 2], [1]] (by decide)⟩

/-! ## Claim C3: tree shape bounds -/

theorem depth_leaf (c : List (List ℕ)) (ls : List ℕ) : (TreeNode.leaf c ls).depth = 1 := by
  simp [TreeNode.depth]

theorem depth_branch (c : List (List ℕ)) (ch : List TreeNode) :
    (TreeNode.branch c ch).depth = 1 + (ch.map TreeNode.depth).foldr max 0 := by
  rw [TreeNode.depth]
  rw [List.attach_map_coe]

theorem leafLabels_leaf (c : List (List ℕ)) (ls : List ℕ) :
    (TreeNode.leaf c ls).leafLabels = Multiset.ofList ls := by
  simp [TreeNode.leafLabels]

theorem leafLabels_branch (c : List (List ℕ)) (ch : List TreeNode) :
    (TreeNode.branch c ch).leafLabels = (ch.map TreeNode.leafLabels).sum := by
  rw [TreeNode.leafLabels]
  rw [List.attach_map_coe]

theorem branchesOk_leaf (c : List (List ℕ)) (ls : List ℕ) :
    (TreeNode.leaf c ls).branchesOk := by
  rw [TreeNode.branchesOk]
  trivial

theorem branchesOk_branch (c : List (List ℕ)) (ch : List TreeNode) :
    (TreeNode.branch c ch).branchesOk ↔ 2 ≤ ch.length ∧ ∀ t ∈ ch, t.branchesOk := by
  rw [TreeNode.branchesOk]
  constructor
  · rintro ⟨h1, h2⟩
    exact ⟨h1, fun t ht => h2 ⟨t, ht⟩ (List.mem_attach _ _)⟩
  · rintro ⟨h1, h2⟩
    exact ⟨h1, fun x _ => h2 x.1 x.2⟩

theorem foldr_max_le {l : List ℕ} {B : ℕ} (h : ∀ x ∈ l, x ≤ B) : l.foldr max 0 ≤ B := by
  induction l with
  | nil => simp
  | cons a t ih =>
    simp only [List.foldr_cons]
    exact max_le (h a (by simp)) (ih fun x hx => h x (by simp [hx]))

theorem sum_map_ofList_flatten (L : List (List ℕ)) :
    (L.map (fun l => Multiset.ofList l)).sum = Multiset.ofList L.flatten := by
  induction L with
  | nil => simp
  | cons h t ih =>
    simp only [List.map_cons, List.sum_cons, List.flatten_cons, ih]
    exact (Multiset.coe_add _ _).symm

theorem map_getD_range {γ : Type} (l : List γ) (d : γ) :
    (List.range l.length).map (fun i => l.getD i d) = l := by
  apply List.ext_getElem
  · simp
  · intro n h1 h2
    simp only [List.getElem_map, List.getElem_range]
    rw [List.getD_eq_getElem _ _ h2]

theorem take_labels_hlen (lc : LabelCluster α) (idxs : List ℕ) :
    (lc.take_labels_by_indices idxs).labels.length =
      (lc.take_labels_by_indices idxs).feature_matrix.rows := by
  simp [LabelCluster.take_labels_by_indices, SparseMat.shrink_column_indices,
    SparseMat.copy_outer_dims, SparseMat.rows]

theorem split_eq_some {cl : Clusterer α} {lc : LabelCluster α}
    {lcs : List (LabelCluster α)} (h : LabelCluster.split cl lc = some lcs) :
    1 < (cl lc.feature_matrix).length ∧
    lcs = (cl lc.feature_matrix).map (fun part => lc.take_labels_by_indices part) := by
  simp only [LabelCluster.split] at h
  split_ifs at h with hgt
  exact ⟨hgt, (Option.some_inj.mp h).symm⟩

theorem attach_map_eq {γ δ : Type} {l : List γ} {f : γ → δ} (g : γ → δ)
    (h : ∀ x ∈ l, f x = g x) :
    l.attach.map (fun x => f x.1) = l.map g := by
  rw [List.attach_map_coe]
  exact List.map_congr_left h

/-- Shape invariants of `train_subtree`, by induction on the remaining depth
budget: the produced subtree's depth is bounded, every branch has at least
two children, and the multiset of leaf labels is exactly the cluster's
labels (given the clusterer's partition contract). -/
theorem trainSubtree_shape (cl : Clusterer α) (hp : HyperParam)
    (hcl : ClustererOk cl) :
    ∀ (n depth : ℕ), n = hp.max_depth - depth →
    ∀ (te : TrainingExamples α) (lc : LabelCluster α),
      lc.labels.length = lc.feature_matrix.rows →
      (trainSubtree cl hp depth te lc).depth ≤ hp.max_depth - depth + 1 ∧
      (trainSubtree cl hp depth te lc).branchesOk ∧
      (trainSubtree cl hp depth te lc).leafLabels = Multiset.ofList lc.labels := by
  intro n
  induction n using Nat.strong_induction_on with
  | _ n ih =>
    intro depth hn te lc hlen
    rw [trainSubtree]
    by_cases hguard : depth < hp.max_depth ∧ hp.min_branch_size ≤ lc.len
    · rw [dif_pos hguard]
      cases hsplit : LabelCluster.split cl lc with
      | none =>
        simp only [trainLeafNode, depth_leaf, branchesOk_leaf, leafLabels_leaf]
        exact ⟨by omega, trivial, by trivial⟩
      | some lcs =>
        simp only []
        obtain ⟨hgt, hlcs⟩ := split_eq_some hsplit
        obtain ⟨hperm, hnonempty⟩ := hcl _ hgt
        have hexlen : (lcs.map (fun c => te.find_examples_with_labels c.labels)).length
            = lcs.length := by simp
        have hziplen : (lcs.zip
            (lcs.map (fun c => te.find_examples_with_labels c.labels))).length
            = lcs.length := by
          rw [List.length_zip, hexlen, Nat.min_self]
        have hlcslen : lcs.length = (cl lc.feature_matrix).length := by
          rw [hlcs, List.length_map]
        have hmeasure : hp.max_depth - (depth + 1) < n := by omega
        have hchild : ∀ y ∈ lcs.zip
            (lcs.map (fun c => te.find_examples_with_labels c.labels)),
            (trainSubtree cl hp (depth + 1) (te.take_examples_by_indices y.2) y.1).depth
              ≤ hp.max_depth - (depth + 1) + 1 ∧
            (trainSubtree cl hp (depth + 1) (te.take_examples_by_indices y.2) y.1).branchesOk ∧
            (trainSubtree cl hp (depth + 1) (te.take_examples_by_indices y.2) y.1).leafLabels
              = Multiset.ofList y.1.labels := by
          intro y hy
          have hy1 : y.1 ∈ lcs := List.of_mem_zip hy |>.1
          have hy1len : y.1.labels.length = y.1.feature_matrix.rows := by
            rw [hlcs] at hy1
            obtain ⟨part, hpmem, heq⟩ := List.mem_map.mp hy1
            rw [← heq]
            exact take_labels_hlen lc part
          exact ih _ hmeasure (depth + 1) rfl (te.take_examples_by_indices y.2) y.1 hy1len
        refine ⟨?_, ?_, ?_⟩
        · rw [depth_branch]
          have : ∀ x ∈ ((lcs.zip (lcs.map
              (fun c => te.find_examples_with_labels c.labels))).attach.map
              (fun x => trainSubtree cl hp (depth + 1)
                (te.take_examples_by_indices x.1.2) x.1.1)).map TreeNode.depth,
              x ≤ hp.max_depth - depth := by
            intro x hx
            simp only [List.map_map, List.mem_map] at hx
            obtain ⟨y, _, rfl⟩ := hx
            simp only [Function.comp_apply]
            have := (hchild y.1 y.2).1
            omega
          have hfold := foldr_max_le this
          omega
        · rw [branchesOk_branch]
          constructor
          · simp only [List.length_map, List.length_attach]
            omega
          · intro t ht
            simp only [List.mem_map] at ht
            obtain ⟨y, _, rfl⟩ := ht
            exact (hchild y.1 y.2).2.1
        · rw [leafLabels_branch]
          rw [List.map_map]
          have hmapeq : ((lcs.zip (lcs.map
              (fun c => te.find_examples_with_labels c.labels))).attach.map
              (TreeNode.leafLabels ∘ fun x => trainSubtree cl hp (depth + 1)
                (te.take_examples_by_indices x.1.2) x.1.1))
              = (lcs.zip (lcs.map
                (fun c => te.find_examples_with_labels c.labels))).map
                (fun y => Multiset.ofList y.1.labels) := by
            simp only [Function.comp_def]
            exact attach_map_eq (fun y => Multiset.ofList y.1.labels)
              (fun y hy => (hchild y hy).2.2)
          rw [hmapeq]
          have hfst : (lcs.zip (lcs.map
              (fun c => te.find_examples_with_labels c.labels))).map
              (fun y => Multiset.ofList y.1.labels)
              = lcs.map (fun c => Multiset.ofList c.labels) := by
            have := List.map_fst_zip lcs
              (lcs.map (fun c => te.find_examples_with_labels c.labels))
              (by rw [hexlen])
            calc (lcs.zip (lcs.map (fun c => te.find_examples_with_labels c.labels))).map
                  (fun y => Multiset.ofList y.1.labels)
                = ((lcs.zip (lcs.map
                    (fun c => te.find_examples_with_labels c.labels))).map Prod.fst).map
                    (fun c => Multiset.ofList c.labels) := by rw [List.map_map]; rfl
              _ = lcs.map (fun c => Multiset.ofList c.labels) := by rw [this]
          rw [hfst, hlcs, List.map_map]
          have : ((cl lc.feature_matrix).map
              ((fun c => Multiset.ofList c.labels) ∘ fun part =>
                lc.take_labels_by_indices part))
              = (cl lc.feature_matrix).map
                (fun part => Multiset.ofList (part.map (fun i => lc.labels.getD i 0))) := by
            apply List.map_congr_left
            intro part _
            simp [LabelCluster.take_labels_by_indices]
          rw [this]
          have hml : ((cl lc.feature_matrix).map
              (fun part => Multiset.ofList (part.map (fun i => lc.labels.getD i 0))))
              = ((cl lc.feature_matrix).map
                (List.map (fun i => lc.labels.getD i 0))).map
                (fun l => Multiset.ofList l) := by
            rw [List.map_map]; rfl
          rw [hml, sum_map_ofList_flatten, ← List.map_flatten]
          apply Multiset.coe_eq_coe.mpr
          have hpermmap := hperm.map (fun i => lc.labels.getD i 0)
          refine hpermmap.trans ?_
          rw [show lc.feature_matrix.rows = lc.labels.length from hlen.symm]
          rw [map_getD_range]
    · rw [dif_neg hguard]
      simp only [trainLeafNode, depth_leaf, branchesOk_leaf, leafLabels_leaf]
      exact ⟨by omega, trivial, by trivial⟩

/-- The root label cluster built by `TreeTrainer::initialize`. -/
noncomputable def rootCluster (ds : DataSet ℝ) (hp : HyperParam) : LabelCluster ℝ :=
  (initTrainer ds hp).2.1

theorem rootCluster_hlen (ds : DataSet ℝ) (hp : HyperParam) :
    (rootCluster ds hp).labels.length = (rootCluster ds hp).feature_matrix.rows := by
  simp [rootCluster, initTrainer, LabelCluster.new_from_dataset, compute_label_centroids,
    csrmatFromPairLists, SparseMat.rows]

/-- **C3.** For every tree produced by training with a clusterer satisfying
the partition contract: the depth is at most `max_depth`, every branch node
has at least two children, the multiset union of the leaves' labels equals
the root cluster's labels, and every leaf label belongs to the root
cluster's labels. -/
theorem claim_C3_tree_shape (cl : Clusterer ℝ) (hp : HyperParam) (ds : DataSet ℝ)
    (hcl : ClustererOk cl) (hd : 1 ≤ hp.max_depth) :
    ∀ tree ∈ (trainModel cl hp ds).trees,
      tree.root.depth ≤ hp.max_depth ∧
      tree.root.branchesOk ∧
      tree.root.leafLabels = Multiset.ofList (rootCluster ds hp).labels ∧
      ∀ L ∈ tree.root.leafLabels, L ∈ (rootCluster ds hp).labels := by
  intro tree htree
  simp only [trainModel, List.mem_map] at htree
  obtain ⟨i, _, rfl⟩ := htree
  have hshape := trainSubtree_shape cl hp hcl (hp.max_depth - 1) 1 rfl
    (initTrainer ds hp).1 ((initTrainer ds hp).2.1) (rootCluster_hlen ds hp)
  refine ⟨?_, hshape.2.1, hshape.2.2, ?_⟩
  · show (trainSubtree cl hp 1 (initTrainer ds hp).1 (initTrainer ds hp).2.1).depth
      ≤ hp.max_depth
    have := hshape.1
    omega
  · intro L hL
    have hL' : L ∈ (trainSubtree cl hp 1 (initTrainer ds hp).1
        (initTrainer ds hp).2.1).leafLabels := hL
    rw [hshape.2.2] at hL'
    exact Multiset.mem_coe.mp hL'

/-- A deterministic clusterer used by witnesses: one row stays a single
cluster, two or more rows are split into the first row and the rest. -/
def halfCl {α : Type} : Clusterer α := fun m =>
  if m.rows < 2 then [List.range m.rows] else [[0], List.range' 1 (m.rows - 1)]

/-- `halfCl` satisfies the spec's partition contract. -/
theorem halfClOk {α : Type} : ClustererOk (α := α) halfCl := by
  intro m hgt
  unfold halfCl at hgt ⊢
  split_ifs at hgt ⊢ with hr
  · simp at hgt
  · push_neg at hr
    constructor
    · show ([0] ++ (List.range' 1 (m.rows - 1) ++ [])).Perm (List.range m.rows)
      rw [List.append_nil]
      have : 0 :: List.range' 1 (m.rows - 1) = List.range m.rows := by
        rw [List.range_eq_range']
        conv_rhs => rw [show m.rows = (m.rows - 1) + 1 by omega]
        rw [List.range'_succ]
      rw [show ([0] ++ List.range' 1 (m.rows - 1)) = 0 :: List.range' 1 (m.rows - 1)
        from rfl, this]
    · simp
      omega

/-- A concrete real-valued dataset for the driver-level witnesses. -/
noncomputable def wDSR : DataSet ℝ :=
  { n_features := 2
    n_labels := 2
    feature_lists := [[(0, 1)], [(1, 1)]]
    label_sets := [[0], [1]] }

/-- Witness for C3: the hypotheses hold for `halfCl` and the default-style
hyper-parameters on a concrete dataset. -/
theorem claim_C3_tree_shape_witness :
    ClustererOk (α := ℝ) halfCl ∧ 1 ≤ goodHP.max_depth ∧
    (∀ tree ∈ (trainModel halfCl goodHP wDSR).trees,
      tree.root.depth ≤ goodHP.max_depth ∧
      tree.root.branchesOk ∧
      tree.root.leafLabels = Multiset.ofList (rootCluster wDSR goodHP).labels ∧
      ∀ L ∈ tree.root.leafLabels, L ∈ (rootCluster wDSR goodHP).labels) :=
  ⟨halfClOk, by decide, claim_C3_tree_shape halfCl goodHP wDSR halfClOk (by decide)⟩

/-! ## Claim C9: constructor assertions never fire -/

/-- A well-formed dataset in the sense of §3, additionally non-degenerate
(at least one example carries at least one label, which the source's
constructor assertions require). -/
def WellFormedDS (ds : DataSet α) : Prop :=
  ds.feature_lists.length = ds.label_sets.length ∧
  ds.label_sets.flatten ≠ [] ∧
  (∀ r ∈ ds.feature_lists, ∀ p ∈ r, p.1 < ds.n_features) ∧
  (∀ s ∈ ds.label_sets, ∀ L ∈ s, L < ds.n_labels)

/-- The conjunction of the constructor assertions of `TrainingExamples::new`
and `LabelCluster::new`. -/
def AssertsOk (te : TrainingExamples α) (lc : LabelCluster α) : Prop :=
  te.feature_matrix.rows = te.label_sets.length ∧
  te.label_sets ≠ [] ∧
  te.feature_matrix.cols = te.index_to_feature.length ∧
  lc.labels.length = lc.feature_matrix.rows ∧
  lc.labels ≠ []

/-- The pairs (examples view, label cluster) reachable during training: the
root pair, and for each reachable pair whose split succeeds, the pair handed
to the recursive call for each child cluster (`train_child_nodes`). -/
inductive Reach (cl : Clusterer α) (te0 : TrainingExamples α) (lc0 : LabelCluster α) :
    TrainingExamples α → LabelCluster α → Prop where
  | root : Reach cl te0 lc0 te0 lc0
  | step {te : TrainingExamples α} {lc : LabelCluster α}
      {lcs : List (LabelCluster α)} {part : List ℕ} :
      Reach cl te0 lc0 te lc →
      LabelCluster.split cl lc = some lcs →
      part ∈ cl lc.feature_matrix →
      Reach cl te0 lc0
        (te.take_examples_by_indices
          (te.find_examples_with_labels ((lc.take_labels_by_indices part).labels)))
        (lc.take_labels_by_indices part)

theorem take_examples_dims (te : TrainingExamples α) (idxs : List ℕ) :
    (te.take_examples_by_indices idxs).feature_matrix.rows = idxs.length ∧
    (te.take_examples_by_indices idxs).label_sets.length = idxs.length ∧
    (te.take_examples_by_indices idxs).feature_matrix.cols =
      (te.take_examples_by_indices idxs).index_to_feature.length := by
  refine ⟨?_, ?_, ?_⟩ <;>
    simp [TrainingExamples.take_examples_by_indices, SparseMat.shrink_column_indices,
      SparseMat.copy_outer_dims, SparseMat.rows, SparseMat.cols]

theorem occurringLabels_mem {ds : DataSet α} {L : ℕ} :
    L ∈ occurringLabels ds ↔ ∃ s ∈ ds.label_sets, L ∈ s := by
  simp [occurringLabels, List.mem_insertionSort, List.mem_dedup, List.mem_flatten]

theorem occurringLabels_ne_nil {ds : DataSet α} (h : ds.label_sets.flatten ≠ []) :
    occurringLabels ds ≠ [] := by
  unfold occurringLabels
  intro hc
  have hperm := List.perm_insertionSort (· ≤ ·) (ds.label_sets.flatten.dedup)
  rw [hc] at hperm
  have hded : [] = ds.label_sets.flatten.dedup := hperm.nil_eq
  exact h ((List.dedup_eq_nil _).mp hded.symm)

/-- Labels of a child built from a partition cell are labels of the parent
cluster. -/
theorem take_labels_subset {lc : LabelCluster α} {part : List ℕ}
    (hlen : lc.labels.length = lc.feature_matrix.rows)
    (hsub : ∀ j ∈ part, j < lc.feature_matrix.rows) :
    ∀ L ∈ (lc.take_labels_by_indices part).labels, L ∈ lc.labels := by
  intro L hL
  simp only [LabelCluster.take_labels_by_indices, List.mem_map] at hL
  obtain ⟨j, hj, rfl⟩ := hL
  have : j < lc.labels.length := hlen ▸ hsub j hj
  rw [List.getD_eq_getElem _ _ this]
  exact List.getElem_mem this

/-- Each child cluster of a successful split matches at least one example:
its labels occur in the example set, so `find_examples_with_labels` is
non-empty and `take_examples_by_indices` never receives an empty index
list. -/
theorem find_child_nonempty {cl : Clusterer α} {te : TrainingExamples α}
    {lc : LabelCluster α} (hcl : ClustererOk cl)
    (hlen : lc.labels.length = lc.feature_matrix.rows)
    (hocc : ∀ L ∈ lc.labels, ∃ s ∈ te.label_sets, L ∈ s)
    {lcs : List (LabelCluster α)} {part : List ℕ}
    (hsplit : LabelCluster.split cl lc = some lcs)
    (hpart : part ∈ cl lc.feature_matrix) :
    te.find_examples_with_labels ((lc.take_labels_by_indices part).labels) ≠ [] := by
  obtain ⟨hgt, _⟩ := split_eq_some hsplit
  obtain ⟨hperm, hne⟩ := hcl _ hgt
  have hpartne : part ≠ [] := fun hc => hne (hc ▸ hpart)
  obtain ⟨j, hj⟩ := List.exists_mem_of_ne_nil part hpartne
  have hjlt : j < lc.feature_matrix.rows := by
    have : j ∈ (cl lc.feature_matrix).flatten := List.mem_flatten.mpr ⟨part, hpart, hj⟩
    exact List.mem_range.mp (hperm.mem_iff.mp this)
  have hLmem : lc.labels.getD j 0 ∈ (lc.take_labels_by_indices part).labels := by
    simp only [LabelCluster.take_labels_by_indices, List.mem_map]
    exact ⟨j, hj, rfl⟩
  have hLparent : lc.labels.getD j 0 ∈ lc.labels := by
    have hjl : j < lc.labels.length := hlen ▸ hjlt
    rw [List.getD_eq_getElem _ _ hjl]
    exact List.getElem_mem hjl
  obtain ⟨s, hs, hLs⟩ := hocc _ hLparent
  obtain ⟨i, hilt, rfl⟩ := List.mem_iff_getElem.mp hs
  have : i ∈ te.find_examples_with_labels ((lc.take_labels_by_indices part).labels) := by
    rw [mem_find_examples_with_labels]
    refine ⟨hilt, lc.labels.getD j 0, ?_, hLmem⟩
    rw [List.getD_eq_getElem _ _ hilt]
    exact hLs
  exact List.ne_nil_of_mem this

/-- **C9.** Every pair (TrainingExamples, LabelCluster) reachable during
training on a well-formed dataset satisfies the constructor assertions
(matching row counts, matching column count and `index_to_feature` length,
non-empty label sets, non-empty cluster labels); moreover every label of the
cluster occurs in the example set, so every child cluster of a branch
matches at least one example and `take_examples_by_indices` is never called
with an empty index list. -/
theorem claim_C9_constructor_assertions (cl : Clusterer ℝ) (hp : HyperParam)
    (ds : DataSet ℝ) (hcl : ClustererOk cl) (hwf : WellFormedDS ds) :
    ∀ te lc, Reach cl (initTrainer ds hp).1 (initTrainer ds hp).2.1 te lc →
      AssertsOk te lc ∧
      (∀ L ∈ lc.labels, ∃ s ∈ te.label_sets, L ∈ s) ∧
      (∀ lcs part, LabelCluster.split cl lc = some lcs →
        part ∈ cl lc.feature_matrix →
        te.find_examples_with_labels ((lc.take_labels_by_indices part).labels) ≠ []) := by
  intro te lc hreach
  induction hreach with
  | root =>
    obtain ⟨hwlen, hwne, _, _⟩ := hwf
    have hsets : (initTrainer ds hp).1.label_sets = ds.label_sets := rfl
    have hlabels : (initTrainer ds hp).2.1.labels = occurringLabels ds := rfl
    have hlen0 : (initTrainer ds hp).2.1.labels.length =
        (initTrainer ds hp).2.1.feature_matrix.rows := rootCluster_hlen ds hp
    refine ⟨⟨?_, ?_, ?_, hlen0, ?_⟩, ?_, ?_⟩
    · simp [initTrainer, TrainingExamples.new_from_dataset, normalizeDataset,
        csrmatFromPairLists, SparseMat.rows, hwlen]
    · rw [hsets]
      intro hc
      rw [hc] at hwne
      simp at hwne
    · simp [initTrainer, TrainingExamples.new_from_dataset, normalizeDataset,
        csrmatFromPairLists, SparseMat.rows, SparseMat.cols]
    · rw [hlabels]
      exact occurringLabels_ne_nil hwne
    · intro L hL
      rw [hlabels] at hL
      rw [hsets]
      exact occurringLabels_mem.mp hL
    · intro lcs part hsplit hpart
      refine find_child_nonempty hcl hlen0 ?_ hsplit hpart
      intro L hL
      rw [hlabels] at hL
      rw [hsets]
      exact occurringLabels_mem.mp hL
  | step hre hsplit hpart ih =>
    rename_i te' lc' lcs' part'
    obtain ⟨⟨hrows, hne, hcols, hlen, hlne⟩, hocc, hfind⟩ := ih
    obtain ⟨hgt, _⟩ := split_eq_some hsplit
    obtain ⟨hperm, hnonempty⟩ := hcl _ hgt
    have hpartsub : ∀ j ∈ part', j < lc'.feature_matrix.rows := by
      intro j hj
      have : j ∈ (cl lc'.feature_matrix).flatten := List.mem_flatten.mpr ⟨part', hpart, hj⟩
      exact List.mem_range.mp (hperm.mem_iff.mp this)
    have hchildsub := take_labels_subset hlen hpartsub
    have hfindne := find_child_nonempty hcl hlen hocc hsplit hpart
    have hdims := take_examples_dims te'
      (te'.find_examples_with_labels ((lc'.take_labels_by_indices part').labels))
    have hchildocc : ∀ L ∈ (lc'.take_labels_by_indices part').labels,
        ∃ s ∈ (te'.take_examples_by_indices
          (te'.find_examples_with_labels
            ((lc'.take_labels_by_indices part').labels))).label_sets, L ∈ s := by
      intro L hL
      obtain ⟨s, hs, hLs⟩ := hocc L (hchildsub L hL)
      obtain ⟨i, hilt, rfl⟩ := List.mem_iff_getElem.mp hs
      have hifind : i ∈ te'.find_examples_with_labels
          ((lc'.take_labels_by_indices part').labels) := by
        rw [mem_find_examples_with_labels]
        refine ⟨hilt, L, ?_, hL⟩
        rw [List.getD_eq_getElem _ _ hilt]
        exact hLs
      refine ⟨te'.label_sets[i], ?_, hLs⟩
      simp only [TrainingExamples.take_examples_by_indices, List.mem_map]
      refine ⟨i, hifind, ?_⟩
      rw [List.getD_eq_getElem _ _ hilt]
    refine ⟨⟨?_, ?_, hdims.2.2, take_labels_hlen lc' part', ?_⟩, hchildocc, ?_⟩
    · rw [hdims.1, hdims.2.1]
    · simp only [TrainingExamples.take_examples_by_indices]
      intro hc
      rw [List.map_eq_nil_iff] at hc
      exact hfindne hc
    · simp only [LabelCluster.take_labels_by_indices]
      intro hc
      rw [List.map_eq_nil_iff] at hc
      exact hnonempty (hc ▸ hpart)
    · intro lcs2 part2 hsplit2 hpart2
      exact find_child_nonempty hcl (take_labels_hlen lc' part') hchildocc hsplit2 hpart2

theorem wDSR_wf : WellFormedDS wDSR := by
  refine ⟨?_, ?_, ?_, ?_⟩ <;> simp [WellFormedDS, wDSR]

/-- Witness for C9: hypotheses hold at `halfCl` on the concrete dataset, and
the conclusion is the constructor-assertion invariant for every reachable
pair. -/
theorem claim_C9_constructor_assertions_witness :
    ClustererOk (α := ℝ) halfCl ∧ WellFormedDS wDSR ∧
    (∀ te lc,
      Reach halfCl (initTrainer wDSR goodHP).1 (initTrainer wDSR goodHP).2.1 te lc →
      AssertsOk te lc ∧
      (∀ L ∈ lc.labels, ∃ s ∈ te.label_sets, L ∈ s) ∧
      (∀ lcs part, LabelCluster.split halfCl lc = some lcs →
        part ∈ halfCl lc.feature_matrix →
        te.find_examples_with_labels ((lc.take_labels_by_indices part).labels) ≠ [])) :=
  ⟨halfClOk, wDSR_wf,
   claim_C9_constructor_assertions halfCl goodHP wDSR halfClOk wDSR_wf⟩

/-! ## Claim C10: only occurring labels get centroids, clusters and leaves -/

/-- **C10.** The root cluster's labels are exactly the labels occurring in
some example's label set; a label assigned to no example gets no centroid,
is in no cluster and in no leaf of any trained tree; and the progress
reporter's initial total is (number of occurring labels) × `n_trees`, not
`n_labels` × `n_trees`. -/
theorem claim_C10_unassigned_labels (cl : Clusterer ℝ) (hp : HyperParam)
    (ds : DataSet ℝ) (hcl : ClustererOk cl) :
    (∀ L, L ∈ (initTrainer ds hp).2.1.labels ↔ ∃ s ∈ ds.label_sets, L ∈ s) ∧
    (∀ L, (¬ ∃ s ∈ ds.label_sets, L ∈ s) →
      L ∉ (compute_label_centroids (normalizeDataset ds)
        ((hp.centroid_threshold : ℝ))).1 ∧
      L ∉ (initTrainer ds hp).2.1.labels ∧
      ∀ tree ∈ (trainModel cl hp ds).trees, L ∉ tree.root.leafLabels) ∧
    progressTotal ds hp = (occurringLabels ds).length * hp.n_trees := by
  have hlabels : (initTrainer ds hp).2.1.labels = occurringLabels ds := rfl
  have hmem : ∀ L, L ∈ (initTrainer ds hp).2.1.labels ↔ ∃ s ∈ ds.label_sets, L ∈ s := by
    intro L
    rw [hlabels]
    exact occurringLabels_mem
  refine ⟨hmem, ?_, ?_⟩
  · intro L hL
    have hnotmem : L ∉ (initTrainer ds hp).2.1.labels := fun hc => hL ((hmem L).mp hc)
    refine ⟨?_, hnotmem, ?_⟩
    · exact hnotmem
    · intro tree htree
      simp only [trainModel, List.mem_map] at htree
      obtain ⟨i, _, rfl⟩ := htree
      have hshape := trainSubtree_shape cl hp hcl (hp.max_depth - 1) 1 rfl
        (initTrainer ds hp).1 ((initTrainer ds hp).2.1) (rootCluster_hlen ds hp)
      intro hc
      have hc' : L ∈ (trainSubtree cl hp 1 (initTrainer ds hp).1
          (initTrainer ds hp).2.1).leafLabels := hc
      rw [hshape.2.2] at hc'
      exact hnotmem (Multiset.mem_coe.mp hc')
  · simp [progressTotal, initTrainer, LabelCluster.len, LabelCluster.new_from_dataset,
      compute_label_centroids, csrmatFromPairLists, SparseMat.rows, occurringLabels,
      normalizeDataset]

/-- Witness for C10 at the concrete clusterer and dataset. -/
theorem claim_C10_unassigned_labels_witness :
    ClustererOk (α := ℝ) halfCl ∧
    ((∀ L, L ∈ (initTrainer wDSR goodHP).2.1.labels ↔ ∃ s ∈ wDSR.label_sets, L ∈ s) ∧
    (∀ L, (¬ ∃ s ∈ wDSR.label_sets, L ∈ s) →
      L ∉ (compute_label_centroids (normalizeDataset wDSR)
        ((goodHP.centroid_threshold : ℝ))).1 ∧
      L ∉ (initTrainer wDSR goodHP).2.1.labels ∧
      ∀ tree ∈ (trainModel halfCl goodHP wDSR).trees, L ∉ tree.root.leafLabels) ∧
    progressTotal wDSR goodHP = (occurringLabels wDSR).length * goodHP.n_trees) :=
  ⟨halfClOk, claim_C10_unassigned_labels halfCl goodHP wDSR halfClOk⟩

/-! ## Claim C8: determinism under fixed seeding -/

/-- **C8.** The embedded training pipeline is a pure function of the
dataset, the hyper-parameters and the clusterer.  The two run-to-run
nondeterminism sources of the source code — the seeding of the clusterer
and the hash-map iteration order in centroid computation — are fixed in the
embedding (the clusterer is an explicit argument; the hash order is the
canonical ascending label order), so two single-threaded runs with identical
inputs, hyper-parameters and seeds produce identical models: identical tree
structure, child orders and leaf label lists. -/
theorem claim_C8_determinism (cl1 cl2 : Clusterer ℝ) (hp1 hp2 : HyperParam)
    (ds1 ds2 : DataSet ℝ)
    (hcl : cl1 = cl2) (hhp : hp1 = hp2) (hds : ds1 = ds2) :
    trainModel cl1 hp1 ds1 = trainModel cl2 hp2 ds2 := by
  subst hcl
  subst hhp
  subst hds
  rfl

/-- Witness for C8: two runs on the same concrete inputs agree. -/
theorem claim_C8_determinism_witness :
    trainModel halfCl goodHP wDSR = trainModel halfCl goodHP wDSR :=
  claim_C8_determinism halfCl halfCl goodHP goodHP wDSR wDSR rfl rfl rfl

/-! ## Claim C1: centroid computation -/

theorem prune_nil (t : ℝ) : pruneWithThreshold t [] = [] := by
  simp [pruneWithThreshold]

theorem prune_cons_drop {t : ℝ} {p : ℕ × ℝ} {v : SparseVec ℝ} (h : |p.2| < t) :
    pruneWithThreshold t (p :: v) = pruneWithThreshold t v := by
  simp only [pruneWithThreshold]
  rw [if_pos h]

theorem prune_cons_keep {t : ℝ} {p : ℕ × ℝ} {v : SparseVec ℝ} (h : ¬ |p.2| < t) :
    pruneWithThreshold t (p :: v) = p :: pruneWithThreshold t v := by
  simp only [pruneWithThreshold]
  rw [if_neg h]

theorem mem_pruneWithThreshold {t : ℝ} {v : SparseVec ℝ} {p : ℕ × ℝ} :
    p ∈ pruneWithThreshold t v ↔ p ∈ v ∧ ¬ |p.2| < t := by
  induction v with
  | nil => simp [prune_nil]
  | cons q r ih =>
    by_cases h : |q.2| < t
    · rw [prune_cons_drop h]
      constructor
      · intro hp
        have := ih.mp hp
        exact ⟨List.mem_cons_of_mem _ this.1, this.2⟩
      · rintro ⟨hp, hnp⟩
        rcases List.mem_cons.mp hp with rfl | hp'
        · exact absurd h hnp
        · exact ih.mpr ⟨hp', hnp⟩
    · rw [prune_cons_keep h]
      constructor
      · intro hp
        rcases List.mem_cons.mp hp with rfl | hp'
        · exact ⟨List.mem_cons_self _ _, h⟩
        · have := ih.mp hp'
          exact ⟨List.mem_cons_of_mem _ this.1, this.2⟩
      · rintro ⟨hp, hnp⟩
        rcases List.mem_cons.mp hp with rfl | hp'
        · exact List.mem_cons_self _ _
        · exact List.mem_cons_of_mem _ (ih.mpr ⟨hp', hnp⟩)

theorem prune_sublist (t : ℝ) (v : SparseVec ℝ) :
    (pruneWithThreshold t v).Sublist v := by
  induction v with
  | nil => simp [prune_nil]
  | cons q r ih =>
    by_cases h : |q.2| < t
    · rw [prune_cons_drop h]
      exact ih.cons _
    · rw [prune_cons_keep h]
      exact ih.cons₂ _

theorem l2normalize_of_ne {v : SparseVec ℝ} (h : Real.sqrt (sumSquares v) ≠ 0) :
    l2normalize v = v.map (fun p => (p.1, p.2 / Real.sqrt (sumSquares v))) := by
  simp only [l2normalize]
  rw [if_neg h]

theorem l2normalize_of_eq {v : SparseVec ℝ} (h : Real.sqrt (sumSquares v) = 0) :
    l2normalize v = [] := by
  simp only [l2normalize]
  rw [if_pos h]

theorem supportFeatures_nodup (ds : DataSet α) (L : ℕ) :
    (supportFeatures ds L).Nodup :=
  (List.perm_insertionSort _ _).nodup_iff.mpr (List.nodup_dedup _)

theorem sumVec_map_fst [AddCommMonoid α] (ds : DataSet α) (L : ℕ) :
    (sumVec ds L).map Prod.fst = supportFeatures ds L := by
  rw [sumVec, List.map_map]
  exact List.map_id _

theorem mem_sumVec [AddCommMonoid α] {ds : DataSet α} {L f : ℕ} {v : α} :
    (f, v) ∈ sumVec ds L ↔ f ∈ supportFeatures ds L ∧ v = featureSum ds L f := by
  rw [sumVec]
  constructor
  · intro h
    obtain ⟨a, ha, heq⟩ := List.mem_map.mp h
    obtain ⟨h1, h2⟩ := Prod.mk.injEq .. ▸ heq
    exact ⟨h1 ▸ ha, h2.symm ▸ (by rw [h1])⟩
  · rintro ⟨h1, rfl⟩
    exact List.mem_map.mpr ⟨f, h1, rfl⟩

theorem sortByIndex_sorted (v : SparseVec α) :
    ((sortByIndex v).map Prod.fst).Sorted (· ≤ ·) := by
  have hs := @List.sorted_insertionSort (ℕ × α) (fun p q => p.1 ≤ q.1)
    (fun p q => Nat.decLe p.1 q.1) ⟨fun a b => Nat.le_total a.1 b.1⟩
    ⟨fun a b c hab hbc => Nat.le_trans hab hbc⟩ v
  exact List.pairwise_map.mpr hs

theorem sortByIndex_perm (v : SparseVec α) : (sortByIndex v).Perm v :=
  List.perm_insertionSort _ _

theorem mem_sortByIndex {v : SparseVec α} {p : ℕ × α} : p ∈ sortByIndex v ↔ p ∈ v :=
  (sortByIndex_perm v).mem_iff

/-- The per-label characterization of `compute_label_centroids`: each
centroid is sorted ascending by feature index with no duplicate features,
and its entries are precisely the features stored by some example carrying
the label, valued at (accumulated sum) / (L2 norm of the sum vector) and
surviving the threshold. -/
theorem centroidOf_spec (ds : DataSet ℝ) (t : ℝ) (L : ℕ) :
    ((centroidOf ds t L).map Prod.fst).Sorted (· ≤ ·) ∧
    ((centroidOf ds t L).map Prod.fst).Nodup ∧
    ∀ f v, (f, v) ∈ centroidOf ds t L ↔
      (Real.sqrt (sumSquares (sumVec ds L)) ≠ 0 ∧ f ∈ supportFeatures ds L ∧
        v = featureSum ds L f / Real.sqrt (sumSquares (sumVec ds L)) ∧ ¬ |v| < t) := by
  by_cases hn : Real.sqrt (sumSquares (sumVec ds L)) = 0
  · have hc : centroidOf ds t L = [] := by
      rw [centroidOf, l2normalize_of_eq hn, prune_nil]
      rfl
    rw [hc]
    refine ⟨by simp, by simp, ?_⟩
    intro f v
    simp [hn]
  · refine ⟨sortByIndex_sorted _, ?_, ?_⟩
    · rw [centroidOf, l2normalize_of_ne hn]
      apply ((sortByIndex_perm _).map Prod.fst).nodup_iff.mpr
      have hsub := (prune_sublist t ((sumVec ds L).map
        (fun p => (p.1, p.2 / Real.sqrt (sumSquares (sumVec ds L)))))).map Prod.fst
      apply List.Nodup.sublist hsub
      rw [List.map_map]
      have : (Prod.fst ∘ fun p : ℕ × ℝ =>
          (p.1, p.2 / Real.sqrt (sumSquares (sumVec ds L)))) = Prod.fst := rfl
      rw [this, sumVec_map_fst]
      exact supportFeatures_nodup ds L
    · intro f v
      rw [centroidOf, l2normalize_of_ne hn, mem_sortByIndex, mem_pruneWithThreshold]
      constructor
      · rintro ⟨hmem, hkeep⟩
        obtain ⟨p, hp, heq⟩ := List.mem_map.mp hmem
        have h1 : p.1 = f := congrArg Prod.fst heq
        have h2 : p.2 / Real.sqrt (sumSquares (sumVec ds L)) = v := congrArg Prod.snd heq
        have hpv : (f, p.2) ∈ sumVec ds L := by
          rw [← h1]
          exact hp
        obtain ⟨hf, hsum⟩ := mem_sumVec.mp hpv
        exact ⟨hn, hf, by rw [← h2, hsum], hkeep⟩
      · rintro ⟨_, hf, rfl, hkeep⟩
        refine ⟨List.mem_map.mpr ⟨(f, featureSum ds L f), mem_sumVec.mpr ⟨hf, rfl⟩, rfl⟩,
          hkeep⟩

/-- The regression-fixture dataset of §8 (also the source's
`test_compute_label_centroids`). -/
noncomputable def fixtureDS : DataSet ℝ :=
  { n_features := 4
    n_labels := 3
    feature_lists := [[(0, 1), (2, 2)], [(1, 1), (3, 2)], [(0, 1), (3, 2)]]
    label_sets := [[0, 1], [0, 2], [1, 2]] }

/-- The fixture threshold `1/√18 + 1e-4`. -/
noncomputable def tFix : ℝ := 1 / Real.sqrt 18 + 1 / 10000

theorem sqrt18_gt : 4 < Real.sqrt 18 := by
  rw [show (4:ℝ) = Real.sqrt 16 by
    rw [show (16:ℝ) = 4 ^ 2 by norm_num, Real.sqrt_sq (by norm_num)]]
  exact Real.sqrt_lt_sqrt (by norm_num) (by norm_num)

theorem sqrt18_lt : Real.sqrt 18 < 4.25 := by
  rw [Real.sqrt_lt' (by norm_num)]
  norm_num

theorem sqrt10_lt : Real.sqrt 10 < 3.2 := by
  rw [Real.sqrt_lt' (by norm_num)]
  norm_num

theorem sqrt12_lt : Real.sqrt 12 < 4 := by
  rw [Real.sqrt_lt' (by norm_num)]
  norm_num

theorem tFix_lt_quarter : tFix < 0.2501 := by
  unfold tFix
  have h1 : 1 / Real.sqrt 18 < 1 / 4 :=
    one_div_lt_one_div_of_lt (by norm_num) sqrt18_gt
  linarith

theorem tFix_pos : 0 < tFix := by
  unfold tFix
  have : 0 ≤ 1 / Real.sqrt 18 := by positivity
  linarith

theorem tFix_lt_inv10 : tFix < 1 / Real.sqrt 10 := by
  have h2 : 1 / (3.2:ℝ) < 1 / Real.sqrt 10 :=
    one_div_lt_one_div_of_lt (Real.sqrt_pos.mpr (by norm_num)) sqrt10_lt
  have := tFix_lt_quarter
  have h3 : (0.2501:ℝ) < 1 / 3.2 := by norm_num
  linarith

theorem tFix_lt_2div10 : tFix < 2 / Real.sqrt 10 := by
  have h1 := tFix_lt_inv10
  have h2 : 1 / Real.sqrt 10 ≤ 2 / Real.sqrt 10 :=
    (div_le_div_right (Real.sqrt_pos.mpr (by norm_num))).mpr (by norm_num)
  linarith

theorem tFix_lt_2div12 : tFix < 2 / Real.sqrt 12 := by
  have h2 : 2 / (4:ℝ) < 2 / Real.sqrt 12 :=
    div_lt_div_of_pos_left (by norm_num) (Real.sqrt_pos.mpr (by norm_num)) sqrt12_lt
  have := tFix_lt_quarter
  linarith

theorem tFix_lt_4div18 : tFix < 4 / Real.sqrt 18 := by
  have h2 : 4 / (4.25:ℝ) < 4 / Real.sqrt 18 :=
    div_lt_div_of_pos_left (by norm_num) (Real.sqrt_pos.mpr (by norm_num)) sqrt18_lt
  have := tFix_lt_quarter
  have h3 : (0.2501:ℝ) < 4 / 4.25 := by norm_num
  linarith

theorem inv18_lt_tFix : 1 / Real.sqrt 18 < tFix := by
  unfold tFix
  norm_num

theorem fixture_sumVec0 : sumVec fixtureDS 0 = [(0, (1:ℝ)), (1, 1), (2, 2), (3, 2)] := by
  simp only [sumVec, supportFeatures, featureSum, carrying, fixtureDS, lookupVal,
    List.zip_cons_cons, List.filter, List.map, List.flatten, List.dedup,
    List.insertionSort, List.orderedInsert, List.sum_cons, List.sum_nil]
  norm_num

theorem fixture_sumVec1 : sumVec fixtureDS 1 = [(0, (2:ℝ)), (2, 2), (3, 2)] := by
  simp only [sumVec, supportFeatures, featureSum, carrying, fixtureDS, lookupVal,
    List.zip_cons_cons, List.filter, List.map, List.flatten, List.dedup,
    List.insertionSort, List.orderedInsert, List.sum_cons, List.sum_nil]
  norm_num

theorem fixture_sumVec2 : sumVec fixtureDS 2 = [(0, (1:ℝ)), (1, 1), (3, 4)] := by
  simp only [sumVec, supportFeatures, featureSum, carrying, fixtureDS, lookupVal,
    List.zip_cons_cons, List.filter, List.map, List.flatten, List.dedup,
    List.insertionSort, List.orderedInsert, List.sum_cons, List.sum_nil]
  norm_num

theorem fixture_centroid0 : centroidOf fixtureDS tFix 0 =
    [(0, 1 / Real.sqrt 10), (1, 1 / Real.sqrt 10),
     (2, 2 / Real.sqrt 10), (3, 2 / Real.sqrt 10)] := by
  have hss : sumSquares (sumVec fixtureDS 0) = 10 := by
    rw [fixture_sumVec0]
    norm_num [sumSquares]
  have hne : Real.sqrt (sumSquares (sumVec fixtureDS 0)) ≠ 0 := by
    rw [hss]
    exact Real.sqrt_ne_zero'.mpr (by norm_num)
  rw [centroidOf, l2normalize_of_ne hne, hss, fixture_sumVec0]
  simp only [List.map]
  rw [prune_cons_keep (by
    rw [abs_of_nonneg (by positivity)]
    exact not_lt.mpr (le_of_lt tFix_lt_inv10))]
  rw [prune_cons_keep (by
    rw [abs_of_nonneg (by positivity)]
    exact not_lt.mpr (le_of_lt tFix_lt_inv10))]
  rw [prune_cons_keep (by
    rw [abs_of_nonneg (by positivity)]
    exact not_lt.mpr (le_of_lt tFix_lt_2div10))]
  rw [prune_cons_keep (by
    rw [abs_of_nonneg (by positivity)]
    exact not_lt.mpr (le_of_lt tFix_lt_2div10))]
  rw [prune_nil]
  rfl

theorem fixture_centroid1 : centroidOf fixtureDS tFix 1 =
    [(0, 2 / Real.sqrt 12), (2, 2 / Real.sqrt 12), (3, 2 / Real.sqrt 12)] := by
  have hss : sumSquares (sumVec fixtureDS 1) = 12 := by
    rw [fixture_sumVec1]
    norm_num [sumSquares]
  have hne : Real.sqrt (sumSquares (sumVec fixtureDS 1)) ≠ 0 := by
    rw [hss]
    exact Real.sqrt_ne_zero'.mpr (by norm_num)
  rw [centroidOf, l2normalize_of_ne hne, hss, fixture_sumVec1]
  simp only [List.map]
  rw [prune_cons_keep (by
    rw [abs_of_nonneg (by positivity)]
    exact not_lt.mpr (le_of_lt tFix_lt_2div12))]
  rw [prune_cons_keep (by
    rw [abs_of_nonneg (by positivity)]
    exact not_lt.mpr (le_of_lt tFix_lt_2div12))]
  rw [prune_cons_keep (by
    rw [abs_of_nonneg (by positivity)]
    exact not_lt.mpr (le_of_lt tFix_lt_2div12))]
  rw [prune_nil]
  rfl

theorem fixture_centroid2 : centroidOf fixtureDS tFix 2 = [(3, 4 / Real.sqrt 18)] := by
  have hss : sumSquares (sumVec fixtureDS 2) = 18 := by
    rw [fixture_sumVec2]
    norm_num [sumSquares]
  have hne : Real.sqrt (sumSquares (sumVec fixtureDS 2)) ≠ 0 := by
    rw [hss]
    exact Real.sqrt_ne_zero'.mpr (by norm_num)
  rw [centroidOf, l2normalize_of_ne hne, hss, fixture_sumVec2]
  simp only [List.map]
  rw [prune_cons_drop (by
    rw [abs_of_nonneg (by positivity)]
    exact inv18_lt_tFix)]
  rw [prune_cons_drop (by
    rw [abs_of_nonneg (by positivity)]
    exact inv18_lt_tFix)]
  rw [prune_cons_keep (by
    rw [abs_of_nonneg (by positivity)]
    exact not_lt.mpr (le_of_lt tFix_lt_4div18))]
  rw [prune_nil]
  rfl

/-- **C1.** For every well-formed dataset and threshold `t ≥ 0`,
`compute_label_centroids` returns the occurring labels, each paired with the
accumulated sum of the feature vectors of the examples carrying the label,
L2-normalised, pruned of entries with `|value| < t`, and sorted ascending by
feature index; on the §8 fixture with `t = 1/√18 + 1e-4` it produces exactly
the three expected centroids, label 2's entries at features 0 and 1 being
pruned. -/
theorem claim_C1_compute_label_centroids :
    (∀ (ds : DataSet ℝ) (t : ℝ), WellFormedDS ds → 0 ≤ t →
      (compute_label_centroids ds t).1 = occurringLabels ds ∧
      (∀ L, L ∈ (compute_label_centroids ds t).1 ↔ ∃ s ∈ ds.label_sets, L ∈ s) ∧
      (compute_label_centroids ds t).2 = (occurringLabels ds).map (centroidOf ds t) ∧
      (∀ L, ((centroidOf ds t L).map Prod.fst).Sorted (· ≤ ·) ∧
        ((centroidOf ds t L).map Prod.fst).Nodup ∧
        ∀ f v, (f, v) ∈ centroidOf ds t L ↔
          (Real.sqrt (sumSquares (sumVec ds L)) ≠ 0 ∧ f ∈ supportFeatures ds L ∧
            v = featureSum ds L f / Real.sqrt (sumSquares (sumVec ds L)) ∧
            ¬ |v| < t))) ∧
    compute_label_centroids fixtureDS tFix =
      ([0, 1, 2],
       [[(0, 1 / Real.sqrt 10), (1, 1 / Real.sqrt 10),
         (2, 2 / Real.sqrt 10), (3, 2 / Real.sqrt 10)],
        [(0, 2 / Real.sqrt 12), (2, 2 / Real.sqrt 12), (3, 2 / Real.sqrt 12)],
        [(3, 4 / Real.sqrt 18)]]) := by
  constructor
  · intro ds t _ _
    exact ⟨rfl, fun L => occurringLabels_mem, rfl, fun L => centroidOf_spec ds t L⟩
  · have hls : occurringLabels fixtureDS = [0, 1, 2] := rfl
    simp only [compute_label_centroids, hls, List.map]
    rw [fixture_centroid0, fixture_centroid1, fixture_centroid2]

theorem fixtureDS_wf : WellFormedDS fixtureDS := by
  refine ⟨?_, ?_, ?_, ?_⟩ <;> simp [WellFormedDS, fixtureDS]
  refine ⟨?_, ?_, ?_⟩ <;> (rintro a b (⟨rfl, -⟩ | ⟨rfl, -⟩)) <;> norm_num

/-- Witness for C1: the fixture dataset is well-formed, the threshold is
non-negative, and the general characterization applies to it. -/
theorem claim_C1_compute_label_centroids_witness :
    WellFormedDS fixtureDS ∧ 0 ≤ tFix ∧
    (∀ L, L ∈ (compute_label_centroids fixtureDS tFix).1 ↔
      ∃ s ∈ fixtureDS.label_sets, L ∈ s) :=
  ⟨fixtureDS_wf, le_of_lt tFix_pos,
   (claim_C1_compute_label_centroids.1 fixtureDS tFix fixtureDS_wf
     (le_of_lt tFix_pos)).2.1⟩

end Parabel
